import Mathlib

/-!
Shallow embedding of the record model, comparators, sorting pipeline and
merge machinery of the `rust_sort` repository (src/zero_copy.rs,
src/core_sort.rs, src/external_sort.rs, src/radix_sort.rs,
src/adaptive_sort.rs, src/simd_compare.rs), together with theorems settling
the claims C1-C10.

Conventions:
* a byte is a `Nat` (value < 256 in practice), a record is a `List Nat`
  (its bytes, terminator excluded), mirroring `Line`/`&[u8]` views;
* Rust `i64` values are embedded as `Int`, with wrapping arithmetic made
  explicit through `wrap64` where the source relies on two's-complement
  overflow, and with checked arithmetic returning `Option` where the source
  uses `checked_mul`/`checked_add`;
* the SIMD helpers of src/simd_compare.rs are embedded by their scalar
  fallbacks, which compute the same functions
  (`compare_bytes_simd = <[u8] as Ord>::cmp`, `is_all_digits_simd =
  all-ascii-digit).
-/

namespace RustSort

/-- A record: the bytes of one line, terminator excluded. -/
abbrev Bytes := List Nat

/-- Embedding of Rust `i64::cmp` (and `Ord` on `i64`). -/
def intCmp (x y : Int) : Ordering :=
  if x < y then .lt else if x = y then .eq else .gt

/-- Embedding of Rust `usize::cmp`. -/
def natCmp (x y : Nat) : Ordering :=
  if x < y then .lt else if x = y then .eq else .gt

/-- Embedding of Rust `<[u8] as Ord>::cmp`: lexicographic byte comparison,
with the shorter slice smaller on a common prefix.  This is also the scalar
semantics of `SIMDCompare::compare_bytes_simd` (src/simd_compare.rs), whose
SIMD paths compute the same function as its scalar fallback `a.cmp(b)`. -/
def bytesCmp : Bytes → Bytes → Ordering
  | [], [] => .eq
  | [], _ :: _ => .lt
  | _ :: _, [] => .gt
  | a :: x, b :: y =>
    match natCmp a b with
    | .eq => bytesCmp x y
    | o => o

/-- Largest `i64` value, `2^63 - 1`. -/
def i64Max : Int := 2 ^ 63 - 1

/-- Smallest `i64` value, `-2^63`. -/
def i64Min : Int := -(2 ^ 63)

/-- Two's-complement wrap-around of an integer into the `i64` range, the
semantics of Rust release-mode arithmetic overflow. -/
def wrap64 (x : Int) : Int := (x + 2 ^ 63) % 2 ^ 64 - 2 ^ 63

/-- Checked embedding of an `i64` arithmetic result: `some` when in range
(matching `checked_mul`/`checked_add` succeeding), `none` on overflow. -/
def chk64 (x : Int) : Option Int :=
  if i64Min ≤ x ∧ x ≤ i64Max then some x else none

/-- Rust `u8::is_ascii_digit`. -/
def isDigitB (b : Nat) : Bool := 48 ≤ b && b ≤ 57

/-- Digit-accumulation loop of `Line::parse_int` (src/zero_copy.rs lines
64-69): for every byte require an ASCII digit, then
`result = result.checked_mul(10)?.checked_add(byte - b'0')?`. -/
def parseIntLoop : Bytes → Int → Option Int
  | [], acc => some acc
  | b :: t, acc =>
    if isDigitB b then
      match chk64 (acc * 10) with
      | none => none
      | some m =>
        match chk64 (m + (b - 48 : Nat)) with
        | none => none
        | some r => parseIntLoop t r
    else none

/-- Embedding of `Line::parse_int` (src/zero_copy.rs lines 48-72): empty
input parses to `0`; a leading `'-'` (only `'-'`, not `'+'`) sets the sign;
a bare sign fails; then the checked digit loop runs and the sign is applied. -/
def parseInt (bytes : Bytes) : Option Int :=
  if bytes = [] then some 0
  else
    let neg := bytes.headD 0 == 45
    let start := if neg then 1 else 0
    if bytes.length ≤ start then none
    else (parseIntLoop (bytes.drop start) 0).map (fun r => if neg then -r else r)

/-- Embedding of `Line::skip_leading_space` (src/zero_copy.rs line 193)
applied as a slice: drop leading ASCII space and tab bytes. -/
def skipLeadingSpace (bytes : Bytes) : Bytes :=
  bytes.dropWhile (fun b => b == 32 || b == 9)

/-- Embedding of `Line::parse_sign` (src/zero_copy.rs lines 197-204),
returning the sign flag and the slice after the sign byte. -/
def parseSignSplit (bytes : Bytes) : Bool × Bytes :=
  match bytes with
  | [] => (false, [])
  | b :: t => if b == 45 then (true, t) else if b == 43 then (false, t) else (false, bytes)

/-- The digit run compared by `compare_numeric_string_style`: skip leading
`'0'` bytes (`skip_leading_zeros`), then take the maximal leading ASCII-digit
run (`count_leading_digits` with the corresponding slice). -/
def leadingDigitRun (digits : Bytes) : Bytes :=
  (digits.dropWhile (fun b => b == 48)).takeWhile isDigitB

/-- Magnitude comparison of `compare_numeric_string_style` (src/zero_copy.rs
lines 176-186): compare the leading digit runs by digit count first, then
lexicographically (the byte slices compared in the source have equal length
in the lexicographic case). -/
def magnitudeCmp (la lb : Bytes) : Ordering :=
  match natCmp la.length lb.length with
  | .eq => bytesCmp la lb
  | o => o

/-- Embedding of `Line::compare_numeric_string_style` (src/zero_copy.rs lines
144-191): skip spaces, handle empties, compare signs, then compare the
leading digit runs after zero stripping, reversing the result for
negatives. -/
def compareNumericStringStyle (a b : Bytes) : Ordering :=
  let ar := skipLeadingSpace a
  let br := skipLeadingSpace b
  match ar, br with
  | [], [] => .eq
  | [], _ :: _ => .lt
  | _ :: _, [] => .gt
  | _ :: _, _ :: _ =>
    let sa := parseSignSplit ar
    let sb := parseSignSplit br
    match sa.1, sb.1 with
    | true, false => .lt
    | false, true => .gt
    | _, _ =>
      let mag := magnitudeCmp (leadingDigitRun sa.2) (leadingDigitRun sb.2)
      if sa.1 then mag.swap else mag

/-- Embedding of `Line::compare_numeric` (src/zero_copy.rs lines 133-141):
fast path through `parse_int` when both records parse, otherwise the
GNU-style string comparison. -/
def compareNumeric (a b : Bytes) : Ordering :=
  match parseInt a, parseInt b with
  | some x, some y => intCmp x y
  | _, _ => compareNumericStringStyle a b

/-- Worker of `parse_lines` with the bytes of the current record accumulated
in reverse. -/
def parseLinesGo : Bytes → Bytes → List Bytes
  | [], cur => if cur = [] then [] else [cur.reverse]
  | b :: t, cur =>
    if b == 10 then cur.reverse :: parseLinesGo t []
    else parseLinesGo t (b :: cur)

/-- Embedding of `parse_lines` (src/zero_copy.rs lines 314-333): split the
input on `b'\n'` only; a final record without terminator is kept, and no
other byte (in particular not NUL) delimits records. -/
def parseLines (data : Bytes) : List Bytes := parseLinesGo data []

/-- Embedding of `CoreSort::write_output_direct` (src/core_sort.rs lines
1285-1301) as the byte stream it produces: each record's bytes followed by
the byte `b'\n'`, unconditionally. -/
def writeOutputDirect (lines : List Bytes) : Bytes :=
  (lines.map (fun l => l ++ [10])).flatten

/-! ## Radix sort (src/radix_sort.rs) -/

/-- Two's-complement 64-bit pattern of an `i64` value, as the `Nat` the
shift-and-mask digit extraction of the radix sort sees. -/
def toBits (v : Int) : Nat := (v % (2 ^ 64 : Int)).toNat

/-- Byte `shift/8` of a value, i.e. `((value >> shift) & mask)` with
`mask = 0xff` as in `radix_sort_positive_parallel` (src/radix_sort.rs lines
322-329); `>>` on `i64` is an arithmetic shift, which agrees with the logical
shift of the two's-complement pattern for the byte positions used
(`shift ≤ 56`). -/
def digitAt (shift : Nat) (v : Int) : Nat := (toBits v >>> shift) &&& 255

/-- One counting-sort pass of `radix_sort_positive_parallel` (the
count/positions/distribute loops, src/radix_sort.rs lines 326-347): the
distribute loop writes, for each digit value in increasing order, the
elements having that digit in their original order. -/
def radixPass (shift : Nat) (l : List (Int × Nat)) : List (Int × Nat) :=
  ((List.range 256).map (fun d => l.filter (fun p => digitAt shift p.1 == d))).flatten

/-- Number of leading zeros of an `i64` (`i64::leading_zeros` on the 64-bit
pattern). -/
def i64Clz (v : Int) : Nat := 64 - Nat.log2 (toBits v) - 1

/-- Embedding of `RadixSort::radix_sort_positive_parallel` (src/radix_sort.rs
lines 305-349): compute the maximum value, derive the number of 8-bit passes
from its bit length, and run the LSD counting passes. -/
def radixSortPositive (values : List (Int × Nat)) : List (Int × Nat) :=
  let maxVal := ((values.map Prod.fst).max?).getD 0
  let maxBits := if maxVal = 0 then 1 else 64 - i64Clz maxVal
  let passes := (maxBits + 7) / 8
  (List.range passes).foldl (fun acc pass => radixPass (pass * 8) acc) values

/-- Wrapping `i64` negation, the semantics of `*value = -*value` in
`parallel_radix_sort_pairs` (release build): the negation of `i64::MIN`
wraps back to `i64::MIN`. -/
def negWrap (v : Int) : Int := wrap64 (-v)

/-- Embedding of `RadixSort::parallel_radix_sort_pairs` (src/radix_sort.rs
lines 261-296): partition into negatives and positives preserving order,
radix-sort the positives directly, radix-sort the negatives after (wrapping)
negation then reverse and negate back, and emit negatives before
positives. -/
def parallelRadixSortPairs (values : List (Int × Nat)) : List (Int × Nat) :=
  let parts := values.partition (fun p => p.1 < 0)
  let negs := parts.1
  let poss := parts.2
  let poss' := if poss = [] then poss else radixSortPositive poss
  let negs' :=
    if negs = [] then negs
    else
      ((radixSortPositive (negs.map (fun p => (negWrap p.1, p.2)))).reverse).map
        (fun p => (negWrap p.1, p.2))
  negs' ++ poss'

/-- Wrapping byte subtraction `byte - b'0'` as compiled in release mode
(`u8` arithmetic wraps modulo 256). -/
def byteSubWrap (b : Nat) : Nat := (b + 256 - 48) % 256

/-- Accumulation loop of `RadixSort::parse_integer_fast` (src/radix_sort.rs
lines 249-251): `result = result * 10 + (byte - b'0') as i64` with no digit
check and wrapping arithmetic at each operation. -/
def parseFastLoop : Bytes → Int → Int
  | [], acc => acc
  | b :: t, acc => parseFastLoop t (wrap64 (wrap64 (acc * 10) + byteSubWrap b))

/-- Embedding of `RadixSort::parse_integer_fast` (src/radix_sort.rs lines
231-258) under release (wrapping) semantics: optional `'-'`/`'+'` sign, then
the unchecked accumulation loop, then wrapping negation. -/
def parseIntegerFast (bytes : Bytes) : Int :=
  if bytes = [] then 0
  else
    let h := bytes.headD 0
    let neg := h == 45
    let start := if h == 45 || h == 43 then 1 else 0
    let r := parseFastLoop (bytes.drop start) 0
    if neg then wrap64 (-r) else r

/-- Debug-semantics variant of `parse_integer_fast`: the same loop with the
overflow checks Rust performs when debug assertions are enabled.  `none`
models an arithmetic-overflow panic: `byte - b'0'` underflows `u8` for any
byte below `b'0'`, and the `i64` product/sum panic when out of range. -/
def parseFastLoopChecked : Bytes → Int → Option Int
  | [], acc => some acc
  | b :: t, acc =>
    if b < 48 then none
    else
      match chk64 (acc * 10) with
      | none => none
      | some m =>
        match chk64 (m + (b - 48 : Nat)) with
        | none => none
        | some r => parseFastLoopChecked t r

/-- Debug-semantics embedding of `RadixSort::parse_integer_fast`: `none`
models a panic from checked arithmetic. -/
def parseIntegerFastChecked (bytes : Bytes) : Option Int :=
  if bytes = [] then some 0
  else
    let h := bytes.headD 0
    let neg := h == 45
    let start := if h == 45 || h == 43 then 1 else 0
    match parseFastLoopChecked (bytes.drop start) 0 with
    | none => none
    | some r => if neg then chk64 (-r) else some r

/-- Embedding of `RadixSort::is_simple_integer` (src/radix_sort.rs lines
161-178): empty is accepted; an optional sign must be followed by at least
one byte; the remainder must be all ASCII digits (`is_all_digits_simd`
computes the scalar all-digit predicate). -/
def isSimpleInteger (bytes : Bytes) : Bool :=
  match bytes with
  | [] => true
  | b :: t =>
    if b == 45 || b == 43 then
      match t with
      | [] => false
      | _ => t.all isDigitB
    else (b :: t).all isDigitB

/-- Embedding of `RadixSort::are_all_simple_integers` (src/radix_sort.rs
lines 151-158): only the first `min(len, 100)` records are sampled. -/
def areAllSimpleIntegers (lines : List Bytes) : Bool :=
  (lines.take 100).all isSimpleInteger

/-- The `(parsed value, original index)` pair list built by
`parallel_radix_sort_integers`/`sequential_radix_sort_integers`
(src/radix_sort.rs lines 183-193 and 208-218): enumerate the records and
parse each with `parse_integer_fast`. -/
def linesToPairs (lines : List Bytes) : List (Int × Nat) :=
  (List.range lines.length).map (fun i => (parseIntegerFast (lines.getD i []), i))

/-- The final reorder of `parallel_radix_sort_integers` (src/radix_sort.rs
lines 198-202): `lines[i] = original_lines[values[i].1]`. -/
def reconstructLines (lines : List Bytes) (pairs : List (Int × Nat)) : List Bytes :=
  pairs.map (fun p => lines.getD p.2 [])

/-- Embedding of `RadixSort::parallel_radix_sort_integers` (src/radix_sort.rs
lines 181-203): parse, sort the pairs, reorder the records. -/
def parallelRadixSortIntegers (lines : List Bytes) : List Bytes :=
  reconstructLines lines (parallelRadixSortPairs (linesToPairs lines))

/-- Generic insertion sort with an explicit move-past predicate, embedding
the in-place insertion loops of the source (`CoreSort::insertion_sort_lines`,
`RadixSort::insertion_sort`): the new element moves left past every element
`prev` with `movePast prev x = true` and stops at the first element it does
not pass, so it lands after equal elements. -/
def insertPast (movePast : α → α → Bool) (x : α) : List α → List α
  | [] => [x]
  | a :: t => if movePast a x then x :: a :: t else a :: insertPast movePast x t

/-- Insertion sort as a left fold of `insertPast` over the input, the
functional form of the `for i in 1..len` insertion loop. -/
def insertionSortBy (movePast : α → α → Bool) (l : List α) : List α :=
  l.foldl (fun acc x => insertPast movePast x acc) []

/-- Embedding of `RadixSort::insertion_sort` (src/radix_sort.rs lines
352-360): the key moves left while `lines[j].compare_numeric(lines[j-1]) ==
Less`. -/
def insertionSortNumeric (lines : List Bytes) : List Bytes :=
  insertionSortBy (fun prev x => compareNumeric x prev == .lt) lines

/-- Stable model of `sort_unstable_by_key(|(value, _)| *value)` used by
`RadixSort::sequential_radix_sort_pairs` (src/radix_sort.rs lines 299-302).
The source's sort is unstable, so the order of pairs with equal values is
unspecified there; this embedding fixes the stable order.  No theorem below
depends on the order of equal-valued pairs in this function. -/
def sequentialRadixSortPairs (values : List (Int × Nat)) : List (Int × Nat) :=
  values.mergeSort (fun p q => p.1 ≤ q.1)

/-- Embedding of `RadixSort::sequential_radix_sort_integers`
(src/radix_sort.rs lines 206-228). -/
def sequentialRadixSortIntegers (lines : List Bytes) : List Bytes :=
  reconstructLines lines (sequentialRadixSortPairs (linesToPairs lines))

/-- Stable model of the `sort_unstable_by(compare_numeric)` fallback of
`sort_numeric_lines` (src/radix_sort.rs lines 44-48); ties are unspecified in
the source and fixed stably here, and no theorem depends on them. -/
def comparisonSortNumeric (lines : List Bytes) : List Bytes :=
  lines.mergeSort (fun a b => compareNumeric a b ≠ .gt)

/-- Embedding of `RadixSort::sort_numeric_lines` (src/radix_sort.rs lines
20-50) for inputs of at most 20 000 000 records: insertion sort below 1000
records, then the sampled simple-integer check chooses between the radix
sorts (parallel when the `parallel` flag is set and `n > 10000`) and the
comparison fallback.  The chunked very-large-dataset branch taken above
20 000 000 records (`sort_very_large_dataset`) is not embedded; every theorem
about this function stays below that threshold. -/
def sortNumericLines (parallel : Bool) (lines : List Bytes) : List Bytes :=
  if lines.length < 1000 then insertionSortNumeric lines
  else if areAllSimpleIntegers lines then
    if parallel ∧ lines.length > 10000 then parallelRadixSortIntegers lines
    else sequentialRadixSortIntegers lines
  else comparisonSortNumeric lines

/-! ## Comparator of the engine (`Line::compare_with_keys`)

`Line::compare_with_keys` is called throughout src/core_sort.rs but its
definition is not part of the sources under src/.  It is modelled from the
spec below for the configuration the claims exercise. -/

/-- Modelled from the spec: `Line::compare_with_keys` is absent from the
sources (only its callers in src/core_sort.rs are present).  Spec section 4.3
specifies that with no keys the whole record is the key and that the
lexicographic mode performs a byte comparison; the callers in
src/core_sort.rs apply the global `reverse` flag themselves
(`compare_lines_direct`, and `lines.reverse()` after the insertion-sort
branch), so `reverse` is not part of this function.  This models the default
configuration (no keys, lexicographic mode, no normalization flags). -/
def compareWithKeysDefault (a b : Bytes) : Ordering := bytesCmp a b

/-! ## Check mode (src/core_sort.rs lines 201-291) -/

/-- Worker for `check_file_sorted_with_line`: `n` is the 1-based line number
of the first record of the remaining list; on the first adjacent pair with
`cmp prev cur = Greater` the 1-based number of the current line, `n + 1`, is
returned (the source's `Err(i + 1)`). -/
def checkSortedGo (cmp : Bytes → Bytes → Ordering) : List Bytes → Nat → Option Nat
  | [], _ => none
  | [_], _ => none
  | a :: b :: t, n =>
    if cmp a b = .gt then some (n + 1) else checkSortedGo cmp (b :: t) (n + 1)

/-- Embedding of `CoreSort::check_file_sorted_with_line` (src/core_sort.rs
lines 258-273), parameterized by the configured comparator: `some L` is the
source's `Err(L)` with `L` the 1-based line number of the first record that
is out of order, `none` means sorted.  `CoreSort::check_stdin_sorted`
(lines 223-246) performs the same scan with the same line numbering. -/
def checkFileSortedWithLine (cmp : Bytes → Bytes → Ordering) (lines : List Bytes) :
    Option Nat :=
  checkSortedGo cmp lines 1

/-- The diagnostic printed by check mode (src/core_sort.rs lines 213 and
237): `sort: <source>:<line>: disorder`. -/
def checkDiagnostic (source : String) (line : Nat) : String :=
  "sort: " ++ source ++ ":" ++ toString line ++ ": disorder"

/-- The observable outcome of check mode for one input: on disorder the
diagnostic line and process exit code 1 (`std::process::exit(1)` at
src/core_sort.rs lines 214 and 238), otherwise no diagnostic and exit code
0 (`EXIT_SUCCESS`). -/
def checkReport (source : String) (cmp : Bytes → Bytes → Ordering)
    (lines : List Bytes) : Option String × Nat :=
  match checkFileSortedWithLine cmp lines with
  | some l => (some (checkDiagnostic source l), 1)
  | none => (none, 0)

/-! ## K-way merges

Both mergers use a `BinaryHeap<Reverse<MergeItem>>`, a Rust max-heap whose
`Reverse` wrapper makes `pop` return the item minimal under `MergeItem`'s
own ordering.  The two `MergeItem::cmp` implementations differ: the core
merger's (src/core_sort.rs lines 672-682) is the plain byte comparison
`a.cmp(b)`, so its pop yields the lexicographically least front line; the
external merger's (src/external_sort.rs lines 433-438) is
`self.line.cmp(&other.line).reverse()`, so the two reversals cancel and its
pop yields the lexicographically GREATEST front line.  The order in which
the heap breaks ties between items with equal lines is unspecified; the
embeddings below pick the source with the smallest index, a deterministic
refinement.  The theorems below only inspect merges whose emitted line
sequence is the same under every tie-breaking rule. -/

/-- Select the front record that a pop of the core merger's heap returns:
the minimal front line under `bytesCmp` among the non-exhausted sources
(ties resolved to the smallest source index), together with its source
index counted from `i`. -/
def selectMinGo : List (List Bytes) → Nat → Option (Bytes × Nat)
  | [], _ => none
  | [] :: rest, i => selectMinGo rest (i + 1)
  | (l :: _) :: rest, i =>
    match selectMinGo rest (i + 1) with
    | none => some (l, i)
    | some (m, j) => if bytesCmp m l = .lt then some (m, j) else some (l, i)

/-- Select the core merger's heap minimum over all sources. -/
def selectMin (readers : List (List Bytes)) : Option (Bytes × Nat) :=
  selectMinGo readers 0

/-- Select the front record that a pop of the external merger's heap
returns: `MergeItem::cmp` (src/external_sort.rs line 436) is the REVERSED
lexicographic comparison and the heap wraps items in `Reverse`, so the two
reversals cancel and a pop yields the MAXIMAL front line under `bytesCmp`
among the non-exhausted sources (ties resolved to the smallest source
index), together with its source index counted from `i`. -/
def selectMaxGo : List (List Bytes) → Nat → Option (Bytes × Nat)
  | [], _ => none
  | [] :: rest, i => selectMaxGo rest (i + 1)
  | (l :: _) :: rest, i =>
    match selectMaxGo rest (i + 1) with
    | none => some (l, i)
    | some (m, j) => if bytesCmp m l = .gt then some (m, j) else some (l, i)

/-- Select the external merger's heap maximum over all sources. -/
def selectMax (readers : List (List Bytes)) : Option (Bytes × Nat) :=
  selectMaxGo readers 0

/-- Advance source `i` past its emitted front record. -/
def advanceReader (readers : List (List Bytes)) (i : Nat) : List (List Bytes) :=
  readers.set i ((readers.getD i []).tail)

/-- Total number of records still held by the sources, used as fuel. -/
def totalLen (readers : List (List Bytes)) : Nat :=
  (readers.map List.length).sum

/-- Merge loop of `CoreSort::merge_readers` (src/core_sort.rs lines 704-743):
pop the heap minimum — `MergeItem::cmp` (lines 672-682) compares the raw
line bytes only, regardless of the configured mode, keys or reverse flag —
write the line, and refill from the same reader.  Note that no `unique`
handling exists anywhere in this loop: every popped line is written. -/
def mergeReadersGo : Nat → List (List Bytes) → List Bytes
  | 0, _ => []
  | fuel + 1, readers =>
    match selectMin readers with
    | none => []
    | some (line, i) => line :: mergeReadersGo fuel (advanceReader readers i)

/-- Embedding of `CoreSort::merge_readers` (src/core_sort.rs lines 643-747)
as the sequence of lines it writes, each source given as its in-order record
sequence. -/
def mergeReaders (readers : List (List Bytes)) : List Bytes :=
  mergeReadersGo (totalLen readers) readers

/-- Merge loop of `ExternalSort::merge_sorted_chunks` (src/external_sort.rs
lines 469-507): the heap is ordered by `MergeItem::cmp` (lines 433-438),
the REVERSED lexicographic string comparison, inside a
`BinaryHeap<Reverse<_>>`, so each pop yields the lexicographically greatest
front line (`selectMax`); the `_numeric` parameter of `merge_sorted_chunks`
is ignored.  When `unique` is set, a popped line equal (as a string) to the
last emitted line is skipped and its reader is still advanced; `last_line`
is updated only in unique mode. -/
def extMergeGo : Nat → List (List Bytes) → Option Bytes → Bool → List Bytes
  | 0, _, _, _ => []
  | fuel + 1, readers, lastLine, unique =>
    match selectMax readers with
    | none => []
    | some (line, i) =>
      let readers' := advanceReader readers i
      if unique ∧ lastLine = some line then extMergeGo fuel readers' lastLine unique
      else
        line :: extMergeGo fuel readers' (if unique then some line else lastLine) unique

/-- Embedding of `ExternalSort::merge_sorted_chunks` (src/external_sort.rs
lines 384-511) as the sequence of lines written to the output, for two or
more chunks. -/
def mergeSortedChunks (chunks : List (List Bytes)) (unique : Bool) : List Bytes :=
  extMergeGo (totalLen chunks) chunks none unique

/-! ## External-sort chunk reading (src/external_sort.rs lines 156-186) -/

/-- Per-line transformation of `ExternalSort::read_chunk_lines`
(src/external_sort.rs lines 173-179): the raw line as read by
`read_line` (record bytes plus a trailing `b'\n'` when present) has its
trailing newline removed, and when a newline was removed a trailing `'\r'`
is popped as well (the `'\r'` pop is nested inside the `'\n'` check). -/
def readChunkProcessLine (raw : Bytes) : Bytes :=
  if raw.getLast? = some 10 then
    if raw.dropLast.getLast? = some 13 then raw.dropLast.dropLast else raw.dropLast
  else raw

/-! ## Adaptive dispatcher (src/adaptive_sort.rs, src/core_sort.rs) -/

/-- Data patterns recognized by `AdaptiveSort::detect_patterns`. -/
inductive DataPattern where
  | MostlySorted
  | MostlyReversed
  | ManyDuplicates
  | Random
deriving DecidableEq

/-- Embedding of `AdaptiveSort::detect_patterns` (src/adaptive_sort.rs lines
86-117) at `T = Vec<u8>`, whose `Ord` instance is the lexicographic byte
order `bytesCmp`: sample `max (min (len/100) 1000) 10` positions, count
ascending, descending and equal adjacent pairs, and classify by the 80%/80%/
50% thresholds. -/
def detectPatterns (data : List Bytes) : DataPattern :=
  if data.length < 100 then .Random
  else
    let sampleSize := max (min (data.length / 100) 1000) 10
    let counts :=
      (List.range sampleSize).foldl
        (fun (c : Nat × Nat × Nat) i =>
          let idx := i * (data.length / sampleSize)
          if idx + 1 < data.length then
            match bytesCmp (data.getD idx []) (data.getD (idx + 1) []) with
            | .lt => (c.1 + 1, c.2.1, c.2.2)
            | .gt => (c.1, c.2.1 + 1, c.2.2)
            | .eq => (c.1, c.2.1, c.2.2 + 1)
          else c)
        (0, 0, 0)
    let total := counts.1 + counts.2.1 + counts.2.2
    if counts.1 > total * 8 / 10 then .MostlySorted
    else if counts.2.1 > total * 8 / 10 then .MostlyReversed
    else if counts.2.2 > total * 5 / 10 then .ManyDuplicates
    else .Random

/-- Worker for `stepBy`: emit the head when the skip counter is zero, then
skip `k - 1` elements. -/
def stepByGo (k : Nat) : List α → Nat → List α
  | [], _ => []
  | a :: t, 0 => a :: stepByGo k t (k - 1)
  | _ :: t, m + 1 => stepByGo k t m

/-- Embedding of `Iterator::step_by(k)` for `k ≥ 1`: the elements at indices
`0, k, 2k, …`. -/
def stepBy (k : Nat) (l : List α) : List α := stepByGo k l 0

/-- Record together with its original input position, the
`SortableLine` wrapper of src/core_sort.rs (lines 1365-1369). -/
structure SLine where
  line : Bytes
  idx : Nat
deriving DecidableEq, Inhabited

/-- Embedding of `CoreSort::insertion_sort_lines` (src/core_sort.rs lines
1168-1191): the key moves left past predecessors with
`compare_with_keys(prev, key) == Greater`. -/
def insertionSortLines (lines : List SLine) : List SLine :=
  insertionSortBy (fun prev x => compareWithKeysDefault prev.line x.line == .gt) lines

/-- Positions in `orig` holding a record with bytes `bs`, in input order: the
`line_to_indices` table of `reconstruct_stable_sortable_lines`. -/
def positionsOf (bs : Bytes) (orig : List SLine) : List Nat :=
  (List.range orig.length).filter (fun i => (orig.getD i default).line = bs)

/-- Embedding of `CoreSort::reconstruct_stable_sortable_lines`
(src/core_sort.rs lines 877-913): entry `i` of the result carries the sorted
record bytes `sorted[i]` together with the original-index data of the
`k`-th original occurrence of those bytes, where `k` counts the earlier
occurrences of the same bytes in `sorted`.  When the bytes have fewer than
`k + 1` occurrences in `orig` the source leaves slot `i` unchanged — that
case cannot occur when `sorted` is a permutation of the original records
(and the source's `.expect` would already have panicked if the bytes were
missing entirely). -/
def reconstructStable (orig : List SLine) (sorted : List Bytes) : List SLine :=
  (List.range sorted.length).map (fun i =>
    let bs := sorted.getD i []
    let k := ((sorted.take i).filter (fun x => x = bs)).length
    let idxs := positionsOf bs orig
    if k < idxs.length then { orig.getD (idxs.getD k 0) default with line := bs }
    else orig.getD i default)

/-- Stable comparison sort of the dispatcher's fallback (src/core_sort.rs
lines 966-985): `sort_by` with the comparator and the original index as tie
break (the parallel `par_sort_by` variant at lines 924-942 has the same
sequential semantics). -/
def comparisonSortStable (lines : List SLine) : List SLine :=
  lines.mergeSort (fun a b =>
    match compareWithKeysDefault a.line b.line with
    | .lt => true
    | .eq => a.idx ≤ b.idx
    | .gt => false)

/-- Stable model of the dispatcher's unstable fallback `sort_unstable_by`
(src/core_sort.rs lines 986-999); the source leaves the order of
comparator-equal records unspecified, and no theorem below depends on it. -/
def comparisonSortUnstable (lines : List SLine) : List SLine :=
  lines.mergeSort (fun a b => compareWithKeysDefault a.line b.line ≠ .gt)

/-- Continuation of `sort_lines_with_cache` after the pattern dispatch
(src/core_sort.rs lines 833-874): the numeric radix branch for at least 1000
records (with the stable reconstruction when `stable` is set and a plain
record replacement otherwise, then the reverse flip), and the
comparison-sort fallback. -/
def sortAfterPattern (stable reverse numeric : Bool) (lines : List SLine) : List SLine :=
  if numeric ∧ 1000 ≤ lines.length then
    let simple := lines.map SLine.line
    let sorted := sortNumericLines (8192 ≤ lines.length) simple
    let withIdx :=
      if stable then reconstructStable lines sorted
      else (List.range lines.length).map (fun i =>
        { lines.getD i default with line := sorted.getD i [] })
    if reverse then withIdx.reverse else withIdx
  else if stable then comparisonSortStable lines
  else comparisonSortUnstable lines

/-- Embedding of `CoreSort::sort_lines_with_cache` (src/core_sort.rs lines
769-874) with `cache = None` and `random_sort = false` (the random branch at
lines 775-778 draws a per-invocation salt and is outside the scenarios of
the claims): detect the pattern on the sampled records, then
- `MostlySorted` and fewer than 100 000 records: insertion sort in place and
  a whole-array reversal when `reverse` is set — regardless of `stable`;
- `MostlyReversed`: reverse, then continue as the generic case;
- `ManyDuplicates` and not numeric: three-way quicksort
  (`three_way_quicksort_lines`, passed in as `tw` — the theorems below never
  exercise this branch and hold for every `tw`), then the reverse flip;
- otherwise the numeric-radix / comparison-sort continuation.
The `par_sort` variants chosen for 8192 or more records have the same
sequential semantics as the sequential branches embedded here. -/
def sortLinesWithCache (tw : List SLine → List SLine)
    (stable reverse numeric : Bool) (lines : List SLine) : List SLine :=
  let pattern :=
    if lines.length > 100 then
      detectPatterns (((stepBy (lines.length / 100) lines).take 100).map SLine.line)
    else DataPattern.Random
  match pattern with
  | .MostlySorted =>
    if lines.length < 100000 then
      let s := insertionSortLines lines
      if reverse then s.reverse else s
    else sortAfterPattern stable reverse numeric lines
  | .MostlyReversed => sortAfterPattern stable reverse numeric lines.reverse
  | .ManyDuplicates =>
    if numeric then sortAfterPattern stable reverse numeric lines
    else
      let s := tw lines
      if reverse then s.reverse else s
  | .Random => sortAfterPattern stable reverse numeric lines

/-! ## General-numeric comparator (src/zero_copy.rs lines 109-130)

`Line::parse_general_numeric` produces an `f64` through Rust's floating
point parser; floating point values are outside the shallow embedding, so
the parsed value is kept abstract: any function into a linearly ordered type
(the order modelling `f64::total_cmp`) together with a NaN predicate.  The
comparison structure of `compare_general_numeric` is embedded exactly. -/

/-- Three-way comparison induced by a linear order, the shape shared by
`i64::cmp`, `usize::cmp` and `f64::total_cmp`. -/
def linCmp [LinearOrder V] (x y : V) : Ordering :=
  if x < y then .lt else if x = y then .eq else .gt

/-- Embedding of `Line::compare_general_numeric` (src/zero_copy.rs lines
109-130), parameterized by the parse function and NaN predicate: two NaNs
compare by raw bytes, a NaN is greater than any non-NaN, and otherwise the
`total_cmp` order decides with the raw bytes as tie-breaker. -/
def compareGeneralNumericWith [LinearOrder V] (parse : Bytes → V) (isNan : V → Bool)
    (a b : Bytes) : Ordering :=
  match isNan (parse a), isNan (parse b) with
  | true, true => bytesCmp a b
  | true, false => .gt
  | false, true => .lt
  | false, false =>
    match linCmp (parse a) (parse b) with
    | .eq => bytesCmp a b
    | o => o

/-! ## Comparison lemmas -/

theorem linCmp_lt [LinearOrder V] {x y : V} (h : x < y) : linCmp x y = .lt := by
  simp [linCmp, h]

theorem linCmp_eq_lt [LinearOrder V] {x y : V} : linCmp x y = .lt ↔ x < y := by
  unfold linCmp
  rcases lt_trichotomy x y with h | h | h
  · simp [h]
  · subst h; simp [lt_irrefl]
  · simp [not_lt_of_lt h, ne_of_gt h, lt_asymm h]

theorem linCmp_self [LinearOrder V] (x : V) : linCmp x x = .eq := by
  simp [linCmp]

theorem linCmp_gt [LinearOrder V] {x y : V} (h : y < x) : linCmp x y = .gt := by
  simp [linCmp, not_lt_of_lt h, (ne_of_gt h)]

theorem linCmp_eq_eq [LinearOrder V] {x y : V} : linCmp x y = .eq ↔ x = y := by
  unfold linCmp
  rcases lt_trichotomy x y with h | h | h
  · simp [h, ne_of_lt h]
  · simp [h]
  · simp [not_lt_of_lt h, ne_of_gt h, lt_asymm h]

theorem linCmp_eq_gt [LinearOrder V] {x y : V} : linCmp x y = .gt ↔ y < x := by
  unfold linCmp
  rcases lt_trichotomy x y with h | h | h
  · simp [h, lt_asymm h]
  · simp [h, lt_irrefl]
  · simp [not_lt_of_lt h, ne_of_gt h, h]

theorem linCmp_swap [LinearOrder V] (x y : V) : linCmp x y = (linCmp y x).swap := by
  rcases lt_trichotomy x y with h | h | h
  · rw [linCmp_lt h, linCmp_gt h]; rfl
  · subst h; rw [linCmp_self]; rfl
  · rw [linCmp_gt h, linCmp_lt h]; rfl

theorem intCmp_eq_linCmp (x y : Int) : intCmp x y = linCmp x y := rfl

theorem natCmp_eq_linCmp (x y : Nat) : natCmp x y = linCmp x y := rfl

theorem natCmp_swap (x y : Nat) : natCmp x y = (natCmp y x).swap := by
  rw [natCmp_eq_linCmp, natCmp_eq_linCmp, linCmp_swap]

theorem bytesCmp_swap (a b : Bytes) : bytesCmp a b = (bytesCmp b a).swap := by
  induction a generalizing b with
  | nil => cases b <;> rfl
  | cons x xs ih =>
    cases b with
    | nil => rfl
    | cons y ys =>
      simp only [bytesCmp, natCmp_swap y x]
      cases natCmp x y <;> simp [Ordering.swap, ih ys]

theorem bytesCmp_self (a : Bytes) : bytesCmp a a = .eq := by
  induction a with
  | nil => rfl
  | cons x xs ih => simp [bytesCmp, natCmp_eq_linCmp, linCmp_self, ih]

theorem bytesCmp_eq_eq {a b : Bytes} : bytesCmp a b = .eq ↔ a = b := by
  constructor
  · intro h
    induction a generalizing b with
    | nil => cases b with
      | nil => rfl
      | cons y ys => simp [bytesCmp] at h
    | cons x xs ih =>
      cases b with
      | nil => simp [bytesCmp] at h
      | cons y ys =>
        simp only [bytesCmp] at h
        rcases hc : natCmp x y with _ | _ | _ <;> rw [hc] at h
        · simp at h
        · rw [natCmp_eq_linCmp, linCmp_eq_eq] at hc
          rw [hc, ih h]
        · simp at h
  · intro h; rw [h, bytesCmp_self]

theorem bytesCmp_lt_trans {a b c : Bytes}
    (h1 : bytesCmp a b = .lt) (h2 : bytesCmp b c = .lt) : bytesCmp a c = .lt := by
  induction a generalizing b c with
  | nil => cases b <;> cases c <;> simp_all [bytesCmp]
  | cons x xs ih =>
    cases b with
    | nil => simp [bytesCmp] at h1
    | cons y ys =>
      cases c with
      | nil => simp [bytesCmp] at h2
      | cons z zs =>
        simp only [bytesCmp, natCmp_eq_linCmp] at h1 h2 ⊢
        rcases lt_trichotomy x y with hxy | hxy | hxy
        · rcases lt_trichotomy y z with hyz | hyz | hyz
          · rw [linCmp_lt (lt_trans hxy hyz)]
          · subst hyz; rw [linCmp_lt hxy]
          · rw [linCmp_gt hyz] at h2; simp at h2
        · subst hxy
          rcases lt_trichotomy x z with hyz | hyz | hyz
          · rw [linCmp_lt hyz]
          · subst hyz
            rw [linCmp_self] at h1 h2 ⊢
            simp only [] at h1 h2 ⊢
            exact ih h1 h2
          · rw [linCmp_gt hyz] at h2; simp at h2
        · rw [linCmp_gt hxy] at h1; simp at h1

theorem bytesCmp_le_trans {a b c : Bytes}
    (h1 : bytesCmp a b ≠ .gt) (h2 : bytesCmp b c ≠ .gt) : bytesCmp a c ≠ .gt := by
  rcases hab : bytesCmp a b with _ | _ | _
  · rcases hbc : bytesCmp b c with _ | _ | _
    · rw [bytesCmp_lt_trans hab hbc]; simp
    · rw [bytesCmp_eq_eq] at hbc; rw [← hbc, hab]; simp
    · exact absurd hbc h2
  · rw [bytesCmp_eq_eq] at hab; rw [hab]; exact h2
  · exact absurd hab h1

theorem magnitudeCmp_swap (la lb : Bytes) : magnitudeCmp la lb = (magnitudeCmp lb la).swap := by
  unfold magnitudeCmp
  rw [natCmp_swap la.length lb.length]
  cases natCmp lb.length la.length <;> simp [Ordering.swap, bytesCmp_swap la lb]

theorem compareNumericStringStyle_swap (a b : Bytes) :
    compareNumericStringStyle a b = (compareNumericStringStyle b a).swap := by
  unfold compareNumericStringStyle
  cases har : skipLeadingSpace a with
  | nil =>
    cases hbr : skipLeadingSpace b with
    | nil => rfl
    | cons y ys => rfl
  | cons x xs =>
    cases hbr : skipLeadingSpace b with
    | nil => rfl
    | cons y ys =>
      simp only []
      cases hsa : (parseSignSplit (x :: xs)).1 <;> cases hsb : (parseSignSplit (y :: ys)).1 <;>
        simp only [hsa, hsb, if_true, if_false, Bool.false_eq_true, ite_false, ite_true]
      · exact magnitudeCmp_swap _ _
      · rfl
      · rfl
      · rw [magnitudeCmp_swap]

theorem compareNumeric_swap (a b : Bytes) :
    compareNumeric a b = (compareNumeric b a).swap := by
  unfold compareNumeric
  cases ha : parseInt a <;> cases hb : parseInt b
  · exact compareNumericStringStyle_swap a b
  · exact compareNumericStringStyle_swap a b
  · exact compareNumericStringStyle_swap a b
  · simp only []
    rw [intCmp_eq_linCmp, intCmp_eq_linCmp, linCmp_swap]

theorem compareGeneralNumericWith_swap [LinearOrder V] (parse : Bytes → V)
    (isNan : V → Bool) (a b : Bytes) :
    compareGeneralNumericWith parse isNan a b =
      (compareGeneralNumericWith parse isNan b a).swap := by
  unfold compareGeneralNumericWith
  cases hA : isNan (parse a) <;> cases hB : isNan (parse b) <;> simp only []
  · rw [linCmp_swap (parse a) (parse b)]
    cases hc : linCmp (parse b) (parse a)
    · rfl
    · simpa [Ordering.swap] using bytesCmp_swap a b
    · rfl
  · rfl
  · rfl
  · exact bytesCmp_swap a b

theorem compareGeneralNumericWith_le_trans [LinearOrder V] (parse : Bytes → V)
    (isNan : V → Bool) (a b c : Bytes)
    (h1 : compareGeneralNumericWith parse isNan a b ≠ .gt)
    (h2 : compareGeneralNumericWith parse isNan b c ≠ .gt) :
    compareGeneralNumericWith parse isNan a c ≠ .gt := by
  unfold compareGeneralNumericWith at h1 h2 ⊢
  cases hA : isNan (parse a) <;> cases hB : isNan (parse b) <;>
    cases hC : isNan (parse c) <;> rw [hA, hB] at h1 <;> rw [hB, hC] at h2 <;>
    simp only [] at h1 h2 ⊢
  -- remaining cases follow from the order on parsed values and `bytesCmp`
  · -- all non-NaN
    rcases hab : linCmp (parse a) (parse b) with _ | _ | _ <;> rw [hab] at h1
    · rcases hbc : linCmp (parse b) (parse c) with _ | _ | _ <;> rw [hbc] at h2
      · rw [linCmp_eq_lt] at hab hbc
        rw [linCmp_lt (lt_trans hab hbc)]; simp
      · rw [linCmp_eq_eq] at hbc
        rw [← hbc, hab]; simp
      · exact absurd rfl h2
    · rw [linCmp_eq_eq] at hab
      rw [hab]
      rcases hbc : linCmp (parse b) (parse c) with _ | _ | _
      · simp
      · rw [hbc] at h2
        exact bytesCmp_le_trans h1 h2
      · rw [hbc] at h2
        exact absurd rfl h2
    · exact absurd rfl h1
  · -- a, b non-NaN, c NaN
    simp
  · -- b NaN, c non-NaN: h2 is the impossible Greater
    exact absurd rfl h2
  · simp
  · -- a NaN, b non-NaN: h1 is the impossible Greater
    exact absurd rfl h1
  · exact absurd rfl h1
  · -- a, b NaN, c non-NaN
    exact absurd rfl h2
  · -- all NaN
    exact bytesCmp_le_trans h1 h2

/-! ## Permutation lemmas -/

theorem insertPast_perm (mp : α → α → Bool) (x : α) (l : List α) :
    (insertPast mp x l).Perm (x :: l) := by
  induction l with
  | nil => exact List.Perm.refl _
  | cons a t ih =>
    simp only [insertPast]
    by_cases h : mp a x
    · rw [if_pos h]
    · rw [if_neg h]
      exact (ih.cons a).trans (List.Perm.swap x a t)

theorem insertionSortBy_foldl_perm (mp : α → α → Bool) :
    ∀ (l acc : List α), (l.foldl (fun a x => insertPast mp x a) acc).Perm (acc ++ l) := by
  intro l
  induction l with
  | nil => intro acc; simp
  | cons x t ih =>
    intro acc
    rw [List.foldl_cons]
    have h2 : (insertPast mp x acc ++ t).Perm ((x :: acc) ++ t) :=
      (insertPast_perm mp x acc).append_right t
    exact (ih (insertPast mp x acc)).trans (h2.trans List.perm_middle.symm)

theorem insertionSortBy_perm (mp : α → α → Bool) (l : List α) :
    (insertionSortBy mp l).Perm l := by
  simpa using insertionSortBy_foldl_perm mp l []

/-- Each digit value is below the radix. -/
theorem digitAt_lt (shift : Nat) (v : Int) : digitAt shift v < 256 :=
  Nat.lt_succ_of_le (Nat.and_le_right)

/-- Grouping a list into its key buckets, concatenated by ascending key, is a
permutation of the list — the correctness of the distribute loop of a
counting-sort pass. -/
theorem flatten_filter_range_perm (key : α → Nat) (n : Nat) (hn : ∀ x : α, key x < n) :
    ∀ l : List α,
      (((List.range n).map (fun d => l.filter (fun x => key x == d))).flatten).Perm l := by
  intro l
  induction l with
  | nil =>
    apply List.Perm.of_eq
    rw [List.flatten_eq_nil_iff]
    intro s hs
    rcases List.mem_map.mp hs with ⟨d, _, hd⟩
    rw [← hd, List.filter_nil]
  | cons x t ih =>
    have hsplit : List.range n =
        List.range (key x) ++ key x ::
          (List.range (n - (key x + 1))).map (fun i => (key x + 1) + i) := by
      have hx := hn x
      have h1 : n = (key x + 1) + (n - (key x + 1)) := by omega
      conv_lhs => rw [h1]
      rw [List.range_add, List.range_succ, List.append_assoc]
      rfl
    have hne : ∀ d : Nat, d ≠ key x →
        (x :: t).filter (fun y => key y == d) = t.filter (fun y => key y == d) := by
      intro d hd
      rw [List.filter_cons_of_neg]
      simp [Ne.symm hd]
    have heq : (x :: t).filter (fun y => key y == key x) =
        x :: t.filter (fun y => key y == key x) := by
      rw [List.filter_cons_of_pos]
      simp
    have hmapLow : (List.range (key x)).map (fun d => (x :: t).filter (fun y => key y == d)) =
        (List.range (key x)).map (fun d => t.filter (fun y => key y == d)) := by
      apply List.map_congr_left
      intro d hd
      exact hne d (by have := List.mem_range.mp hd; omega)
    have hmapHigh : ((List.range (n - (key x + 1))).map (fun i => (key x + 1) + i)).map
          (fun d => (x :: t).filter (fun y => key y == d)) =
        ((List.range (n - (key x + 1))).map (fun i => (key x + 1) + i)).map
          (fun d => t.filter (fun y => key y == d)) := by
      apply List.map_congr_left
      intro d hd
      rcases List.mem_map.mp hd with ⟨i, _, hi⟩
      exact hne d (by omega)
    rw [hsplit, List.map_append, List.map_cons, List.flatten_append, List.flatten_cons,
      hmapLow, hmapHigh, heq]
    set A := ((List.range (key x)).map (fun d => t.filter (fun y => key y == d))).flatten with hA
    set B := t.filter (fun y => key y == key x) ++
      (((List.range (n - (key x + 1))).map (fun i => (key x + 1) + i)).map
        (fun d => t.filter (fun y => key y == d))).flatten with hB
    have hperm : (A ++ x :: B).Perm (x :: (A ++ B)) := List.perm_middle
    refine (List.Perm.of_eq ?_).trans (hperm.trans ?_)
    · simp [hA, hB, List.append_assoc]
    · apply List.Perm.cons
      have hre : A ++ B =
          (((List.range n).map (fun d => t.filter (fun y => key y == d))).flatten) := by
        conv_rhs => rw [hsplit]
        rw [List.map_append, List.map_cons, List.flatten_append, List.flatten_cons, hA, hB]
      exact (List.Perm.of_eq hre).trans ih

theorem radixPass_perm (shift : Nat) (l : List (Int × Nat)) :
    (radixPass shift l).Perm l := by
  have h := flatten_filter_range_perm (fun p : Int × Nat => digitAt shift p.1) 256
    (fun p => digitAt_lt shift p.1) l
  unfold radixPass
  exact h

theorem radixPasses_foldl_perm : ∀ (ps : List Nat) (acc : List (Int × Nat)),
    (ps.foldl (fun acc p => radixPass (p * 8) acc) acc).Perm acc := by
  intro ps
  induction ps with
  | nil => intro acc; exact List.Perm.refl _
  | cons p t ih =>
    intro acc
    rw [List.foldl_cons]
    exact (ih (radixPass (p * 8) acc)).trans (radixPass_perm (p * 8) acc)

theorem radixSortPositive_perm (values : List (Int × Nat)) :
    (radixSortPositive values).Perm values := by
  unfold radixSortPositive
  exact radixPasses_foldl_perm _ values

theorem pow63_eq : (2 : Int) ^ 63 = 9223372036854775808 := by norm_num

theorem pow64_eq : (2 : Int) ^ 64 = 18446744073709551616 := by norm_num

/-- `wrap64` always lands in the `i64` range. -/
theorem wrap64_mem (x : Int) : i64Min ≤ wrap64 x ∧ wrap64 x ≤ i64Max := by
  unfold wrap64 i64Min i64Max
  have h1 : 0 ≤ (x + 2 ^ 63) % 2 ^ 64 := Int.emod_nonneg _ (by norm_num)
  have h2 : (x + 2 ^ 63) % 2 ^ 64 < 2 ^ 64 := Int.emod_lt_of_pos _ (by norm_num)
  rw [pow63_eq] at *
  rw [pow64_eq] at *
  omega

/-- `wrap64` is the identity on the `i64` range. -/
theorem wrap64_eq_self {x : Int} (h1 : i64Min ≤ x) (h2 : x ≤ i64Max) : wrap64 x = x := by
  unfold wrap64
  unfold i64Min at h1
  unfold i64Max at h2
  rw [pow63_eq] at *
  rw [Int.emod_eq_of_lt (by omega) (by rw [pow64_eq]; omega)]
  omega

/-- Wrapping negation is an involution on the `i64` range. -/
theorem negWrap_negWrap {v : Int} (h1 : i64Min ≤ v) (h2 : v ≤ i64Max) :
    negWrap (negWrap v) = v := by
  by_cases hmin : v = i64Min
  · subst hmin
    have h : negWrap i64Min = i64Min := by
      unfold negWrap wrap64 i64Min
      norm_num
    rw [h, h]
  · unfold i64Min at h1 hmin
    unfold i64Max at h2
    rw [pow63_eq] at h1 h2 hmin
    have hr1 : i64Min ≤ -v := by unfold i64Min; rw [pow63_eq]; omega
    have hr2 : -v ≤ i64Max := by unfold i64Max; rw [pow63_eq]; omega
    unfold negWrap
    rw [wrap64_eq_self hr1 hr2]
    rw [wrap64_eq_self (by unfold i64Min; rw [pow63_eq]; omega)
      (by unfold i64Max; rw [pow63_eq]; omega)]
    omega

theorem parallelRadixSortPairs_perm (values : List (Int × Nat))
    (hv : ∀ p ∈ values, i64Min ≤ p.1 ∧ p.1 ≤ i64Max) :
    (parallelRadixSortPairs values).Perm values := by
  unfold parallelRadixSortPairs
  rw [List.partition_eq_filter_filter]
  simp only []
  set f : Int × Nat → Bool := fun p => decide (p.1 < 0) with hf
  have hneg : ∀ p ∈ values.filter f, i64Min ≤ p.1 ∧ p.1 ≤ i64Max :=
    fun p hp => hv p (List.mem_of_mem_filter hp)
  have negsPerm :
      (if values.filter f = [] then values.filter f
       else ((radixSortPositive ((values.filter f).map
          (fun p => (negWrap p.1, p.2)))).reverse).map
            (fun p => (negWrap p.1, p.2))).Perm (values.filter f) := by
    by_cases hE : values.filter f = []
    · rw [if_pos hE]
    · rw [if_neg hE]
      have p1 : (((radixSortPositive ((values.filter f).map
          (fun p => (negWrap p.1, p.2)))).reverse).map
            (fun p => (negWrap p.1, p.2))).Perm
          (((values.filter f).map (fun p => (negWrap p.1, p.2))).map
            (fun p => (negWrap p.1, p.2))) :=
        ((List.reverse_perm _).trans (radixSortPositive_perm _)).map _
      have p2 : ((values.filter f).map (fun p => (negWrap p.1, p.2))).map
          (fun p => (negWrap p.1, p.2)) = values.filter f := by
        rw [List.map_map]
        conv_rhs => rw [← List.map_id (values.filter f)]
        apply List.map_congr_left
        intro p hp
        have hr := hneg p hp
        show (negWrap (negWrap p.1), p.2) = p
        rw [negWrap_negWrap hr.1 hr.2]
      rw [p2] at p1
      exact p1
  have posPerm :
      (if values.filter (not ∘ f) = [] then values.filter (not ∘ f)
       else radixSortPositive (values.filter (not ∘ f))).Perm
        (values.filter (not ∘ f)) := by
    by_cases hE : values.filter (not ∘ f) = []
    · rw [if_pos hE]
    · rw [if_neg hE]
      exact radixSortPositive_perm _
  exact (negsPerm.append posPerm).trans (List.filter_append_perm f values)

/-- `parse_integer_fast` always produces a value in the `i64` range. -/
theorem parseFastLoop_mem (t : Bytes) :
    ∀ acc : Int, i64Min ≤ acc ∧ acc ≤ i64Max →
      i64Min ≤ parseFastLoop t acc ∧ parseFastLoop t acc ≤ i64Max := by
  induction t with
  | nil => intro acc h; exact h
  | cons b t ih =>
    intro acc _
    exact ih _ (wrap64_mem _)

theorem parseIntegerFast_mem (bytes : Bytes) :
    i64Min ≤ parseIntegerFast bytes ∧ parseIntegerFast bytes ≤ i64Max := by
  unfold parseIntegerFast
  by_cases hE : bytes = []
  · rw [if_pos hE]
    constructor
    · unfold i64Min; norm_num
    · unfold i64Max; norm_num
  · rw [if_neg hE]
    simp only []
    by_cases hneg : (bytes.headD 0 == 45) = true
    · simp only [hneg, if_true]
      exact wrap64_mem _
    · simp only [hneg]
      simp only [Bool.false_eq_true, if_false]
      apply parseFastLoop_mem
      constructor
      · unfold i64Min; norm_num
      · unfold i64Max; norm_num

theorem getD_range_map (l : List α) (d : α) :
    (List.range l.length).map (fun i => l.getD i d) = l := by
  induction l with
  | nil => rfl
  | cons x t ih =>
    rw [List.length_cons, List.range_succ_eq_map, List.map_cons, List.map_map]
    have htail : ((List.range t.length).map ((fun i => (x :: t).getD i d) ∘ Nat.succ)) =
        (List.range t.length).map (fun i => t.getD i d) := by
      apply List.map_congr_left
      intro i _
      rfl
    rw [htail, ih]
    rfl

theorem reconstructLines_eq_of_pairs (lines : List Bytes) :
    reconstructLines lines (linesToPairs lines) = lines := by
  unfold reconstructLines linesToPairs
  rw [List.map_map]
  have : ((fun p : Int × Nat => lines.getD p.2 []) ∘
      fun i => (parseIntegerFast (lines.getD i []), i)) = fun i => lines.getD i [] := rfl
  rw [this]
  exact getD_range_map lines []

theorem reconstructLines_perm (lines : List Bytes) (pairs : List (Int × Nat))
    (h : pairs.Perm (linesToPairs lines)) :
    (reconstructLines lines pairs).Perm lines := by
  have h2 := h.map (fun p : Int × Nat => lines.getD p.2 [])
  rw [show (linesToPairs lines).map (fun p : Int × Nat => lines.getD p.2 []) =
      reconstructLines lines (linesToPairs lines) from rfl,
    reconstructLines_eq_of_pairs] at h2
  exact h2

/-- The radix pipeline never loses or alters a record: for every input —
simple integers or arbitrary garbage — the output is a permutation of the
input records. -/
theorem parallelRadixSortIntegers_perm (lines : List Bytes) :
    (parallelRadixSortIntegers lines).Perm lines := by
  unfold parallelRadixSortIntegers
  apply reconstructLines_perm
  apply parallelRadixSortPairs_perm
  intro p hp
  unfold linesToPairs at hp
  rcases List.mem_map.mp hp with ⟨i, _, hip⟩
  rw [← hip]
  exact parseIntegerFast_mem _

/-! ## Scanner/writer round trip -/

/-- Whether the raw input ends with a newline byte. -/
def endsWithNl : Bytes → Bool
  | [] => false
  | [b] => b == 10
  | _ :: t => endsWithNl t

theorem endsWithNl_cons (b : Nat) (t : Bytes) :
    endsWithNl (b :: t) = if t = [] then b == 10 else endsWithNl t := by
  cases t <;> rfl

theorem writeOutputDirect_cons (a : Bytes) (rest : List Bytes) :
    writeOutputDirect (a :: rest) = a ++ 10 :: writeOutputDirect rest := by
  simp [writeOutputDirect]

theorem writeOutputDirect_parseLinesGo : ∀ (t cur : Bytes),
    writeOutputDirect (parseLinesGo t cur) =
      if t = [] ∧ cur = [] then []
      else if endsWithNl t then cur.reverse ++ t
      else cur.reverse ++ t ++ [10] := by
  intro t
  induction t with
  | nil =>
    intro cur
    by_cases hc : cur = []
    · subst hc; decide
    · simp only [parseLinesGo, if_neg hc, writeOutputDirect_cons]
      rw [if_neg (by simp [hc])]
      simp [writeOutputDirect, endsWithNl]
  | cons b t ih =>
    intro cur
    by_cases hb : b = 10
    · subst hb
      simp only [parseLinesGo, beq_self_eq_true, if_true, writeOutputDirect_cons, ih []]
      by_cases ht : t = []
      · subst ht
        simp [endsWithNl]
      · by_cases hnl : endsWithNl t
        · simp [ht, hnl, endsWithNl_cons]
        · simp [ht, hnl, endsWithNl_cons]
    · have hb' : (b == 10) = false := by simp [hb]
      simp only [parseLinesGo, hb', Bool.false_eq_true, if_false, ih (b :: cur)]
      by_cases ht : t = []
      · subst ht
        simp [endsWithNl, hb']
      · by_cases hnl : endsWithNl t
        · simp [ht, hnl, endsWithNl_cons]
        · simp [ht, hnl, endsWithNl_cons]

/-- Writing the scanned records back reproduces the input byte stream, with
a terminator added exactly when the last record lacked one: empty input
stays empty. -/
theorem writeOutputDirect_parseLines (data : Bytes) :
    writeOutputDirect (parseLines data) =
      if data = [] then []
      else if endsWithNl data then data else data ++ [10] := by
  unfold parseLines
  rw [writeOutputDirect_parseLinesGo]
  by_cases h : data = [] <;> simp [h]

/-! ## Radix-sort sortedness -/

theorem digitAt_eq_div_mod (shift : Nat) (v : Int) :
    digitAt shift v = toBits v / 2 ^ shift % 256 := by
  unfold digitAt
  rw [Nat.shiftRight_eq_div_pow]
  have h := Nat.and_pow_two_sub_one_eq_mod (toBits v / 2 ^ shift) 8
  norm_num at h
  exact h

theorem pairwise_of_true {R : α → α → Prop} (h : ∀ a b, R a b) (l : List α) :
    l.Pairwise R := by
  induction l with
  | nil => exact List.Pairwise.nil
  | cons x t ih => exact List.Pairwise.cons (fun b _ => h x b) ih

/-- One counting pass at byte position `j` refines sortedness from the low
`8j` bits to the low `8(j+1)` bits: the pass groups by byte `j` in ascending
order and keeps the relative order (hence the low-bit sortedness) inside
each group. -/
theorem radixPass_sorted (j : Nat) (l : List (Int × Nat))
    (h : List.Pairwise (fun p q => toBits p.1 % 2 ^ (j * 8) ≤ toBits q.1 % 2 ^ (j * 8)) l) :
    List.Pairwise
      (fun p q => toBits p.1 % 2 ^ ((j + 1) * 8) ≤ toBits q.1 % 2 ^ ((j + 1) * 8))
      (radixPass (j * 8) l) := by
  have hdec : ∀ v : Int, toBits v % 2 ^ ((j + 1) * 8) =
      toBits v % 2 ^ (j * 8) + 2 ^ (j * 8) * digitAt (j * 8) v := by
    intro v
    rw [digitAt_eq_div_mod]
    have hp : (2 : Nat) ^ ((j + 1) * 8) = 2 ^ (j * 8) * 2 ^ 8 := by
      rw [← pow_add]
      congr 1
      ring
    rw [hp]
    have h256 : (256 : Nat) = 2 ^ 8 := by norm_num
    rw [h256]
    exact Nat.mod_mul
  unfold radixPass
  rw [List.pairwise_flatten]
  constructor
  · intro s hs
    rcases List.mem_map.mp hs with ⟨d, _, hds⟩
    rw [← hds]
    have hsub : List.Pairwise
        (fun p q => toBits p.1 % 2 ^ (j * 8) ≤ toBits q.1 % 2 ^ (j * 8))
        (l.filter (fun p => digitAt (j * 8) p.1 == d)) :=
      h.sublist (List.filter_sublist l)
    apply hsub.imp_of_mem
    intro a b ha hb hle
    have hda : digitAt (j * 8) a.1 = d := by
      have := (List.mem_filter.mp ha).2
      simpa using this
    have hdb : digitAt (j * 8) b.1 = d := by
      have := (List.mem_filter.mp hb).2
      simpa using this
    rw [hdec a.1, hdec b.1, hda, hdb]
    omega
  · rw [List.pairwise_map]
    apply (List.pairwise_lt_range 256).imp_of_mem
    intro d1 d2 _ _ hlt x hx y hy
    have hdx : digitAt (j * 8) x.1 = d1 := by
      have := (List.mem_filter.mp hx).2
      simpa using this
    have hdy : digitAt (j * 8) y.1 = d2 := by
      have := (List.mem_filter.mp hy).2
      simpa using this
    rw [hdec x.1, hdec y.1, hdx, hdy]
    have hmx : toBits x.1 % 2 ^ (j * 8) < 2 ^ (j * 8) :=
      Nat.mod_lt _ (Nat.pos_pow_of_pos _ (by norm_num))
    have hmul : 2 ^ (j * 8) * (d1 + 1) ≤ 2 ^ (j * 8) * d2 :=
      Nat.mul_le_mul_left _ (by omega)
    have hexp : 2 ^ (j * 8) * (d1 + 1) = 2 ^ (j * 8) * d1 + 2 ^ (j * 8) := by ring
    rw [hexp] at hmul
    omega

/-- After the passes for byte positions `0, …, p − 1`, the pair list is
sorted by its values' low `8p` bits. -/
theorem radixPasses_sorted (p : Nat) (l : List (Int × Nat)) :
    List.Pairwise (fun a b => toBits a.1 % 2 ^ (p * 8) ≤ toBits b.1 % 2 ^ (p * 8))
      ((List.range p).foldl (fun acc pass => radixPass (pass * 8) acc) l) := by
  induction p generalizing l with
  | zero =>
    apply pairwise_of_true
    intro a b
    simp [Nat.mod_one]
  | succ p ih =>
    rw [List.range_succ, List.foldl_append]
    exact radixPass_sorted p _ (ih l)

theorem foldl_max_le_self (t : List Int) : ∀ a : Int, a ≤ t.foldl max a := by
  induction t with
  | nil => intro a; exact le_refl a
  | cons x s ih =>
    intro a
    rw [List.foldl_cons]
    exact le_trans (le_max_left a x) (ih (max a x))

theorem le_foldl_max (t : List Int) : ∀ (a x : Int), x ∈ t → x ≤ t.foldl max a := by
  induction t with
  | nil => intro a x hx; cases hx
  | cons y s ih =>
    intro a x hx
    rw [List.foldl_cons]
    rcases List.mem_cons.mp hx with h | h
    · subst h
      exact le_trans (le_max_right a x) (foldl_max_le_self s _)
    · exact ih (max a y) x h

/-- Every value of a pair list is at most the `max_val` the radix sort
computes (`values.max().unwrap_or(0)`). -/
theorem le_maxval (values : List (Int × Nat)) (p : Int × Nat) (hp : p ∈ values) :
    p.1 ≤ ((values.map Prod.fst).max?).getD 0 := by
  have hmem : p.1 ∈ values.map Prod.fst := List.mem_map.mpr ⟨p, hp, rfl⟩
  rcases hm : values.map Prod.fst with _ | ⟨a, t⟩
  · rw [hm] at hmem; cases hmem
  · rw [hm] at hmem
    show p.1 ≤ (some (t.foldl max a)).getD 0
    rw [Option.getD_some]
    rcases List.mem_cons.mp hmem with h | h
    · subst h
      exact foldl_max_le_self t p.1
    · exact le_foldl_max t a p.1 h

/-! ## Agreement of the checked and unchecked integer parsers -/

/-- A successful `parse_int` digit loop saw only ASCII digits. -/
theorem parseIntLoop_all_digits : ∀ (t : Bytes) (acc r : Int),
    parseIntLoop t acc = some r → t.all isDigitB = true := by
  intro t
  induction t with
  | nil => intro acc r _; rfl
  | cons b s ih =>
    intro acc r h
    unfold parseIntLoop at h
    split at h
    · next hd =>
      split at h
      · cases h
      · next m hm =>
        split at h
        · cases h
        · next r' hr =>
          rw [List.all_cons, hd, Bool.true_and]
          exact ih _ _ h
    · cases h

/-- The checked digit loop keeps its accumulator in `[0, i64Max]`. -/
theorem parseIntLoop_range : ∀ (t : Bytes) (acc r : Int), 0 ≤ acc → acc ≤ i64Max →
    parseIntLoop t acc = some r → 0 ≤ r ∧ r ≤ i64Max := by
  intro t
  induction t with
  | nil =>
    intro acc r h0 h1 h
    unfold parseIntLoop at h
    injection h with h
    subst h
    exact ⟨h0, h1⟩
  | cons b s ih =>
    intro acc r h0 h1 h
    unfold parseIntLoop at h
    split at h
    · next hd =>
      split at h
      · cases h
      · next m hm =>
        split at h
        · cases h
        · next r' hr =>
          have hm' : m = acc * 10 ∧ i64Min ≤ acc * 10 ∧ acc * 10 ≤ i64Max := by
            unfold chk64 at hm
            split at hm
            · next hc => injection hm with hm; exact ⟨hm.symm, hc⟩
            · cases hm
          have hr' : r' = m + ((b - 48 : Nat) : Int) ∧
              i64Min ≤ m + ((b - 48 : Nat) : Int) ∧ m + ((b - 48 : Nat) : Int) ≤ i64Max := by
            unfold chk64 at hr
            split at hr
            · next hc => injection hr with hr; exact ⟨hr.symm, hc⟩
            · cases hr
          apply ih r' r _ _ h
          · have hcast : (0 : Int) ≤ ((b - 48 : Nat) : Int) := Int.natCast_nonneg _
            have hmul : (0 : Int) ≤ acc * 10 := mul_nonneg h0 (by norm_num)
            omega
          · exact hr'.1.trans_le hr'.2.2
    · cases h

/-- On a byte list the checked loop accepts, the wrapping fast loop computes
the same value. -/
theorem parseIntLoop_fast : ∀ (t : Bytes) (acc r : Int),
    parseIntLoop t acc = some r → parseFastLoop t acc = r := by
  intro t
  induction t with
  | nil =>
    intro acc r h
    unfold parseIntLoop at h
    injection h
  | cons b s ih =>
    intro acc r h
    unfold parseIntLoop at h
    split at h
    · next hd =>
      split at h
      · cases h
      · next m hm =>
        split at h
        · cases h
        · next r' hr =>
          have hm' : m = acc * 10 ∧ i64Min ≤ acc * 10 ∧ acc * 10 ≤ i64Max := by
            unfold chk64 at hm
            split at hm
            · next hc => injection hm with hm; exact ⟨hm.symm, hc⟩
            · cases hm
          have hr' : r' = m + ((b - 48 : Nat) : Int) ∧
              i64Min ≤ m + ((b - 48 : Nat) : Int) ∧ m + ((b - 48 : Nat) : Int) ≤ i64Max := by
            unfold chk64 at hr
            split at hr
            · next hc => injection hr with hr; exact ⟨hr.symm, hc⟩
            · cases hr
          have hdig : 48 ≤ b ∧ b ≤ 57 := by
            unfold isDigitB at hd
            simp at hd
            exact hd
          have hbs : byteSubWrap b = b - 48 := by
            unfold byteSubWrap
            omega
          have hmeq : wrap64 (acc * 10) = m := by
            rw [wrap64_eq_self hm'.2.1 hm'.2.2, hm'.1]
          have hreq : wrap64 (m + ((b - 48 : Nat) : Int)) = r' := by
            rw [wrap64_eq_self hr'.2.1 hr'.2.2, hr'.1]
          unfold parseFastLoop
          rw [hbs, hmeq, hreq]
          exact ih _ _ h
    · cases h

/-- Case split of a successful `Line::parse_int`. -/
theorem parseInt_cases {bytes : Bytes} {v : Int} (h : parseInt bytes = some v) :
    (bytes = [] ∧ v = 0) ∨
    (∃ r t, bytes = 45 :: t ∧ t ≠ [] ∧ parseIntLoop t 0 = some r ∧ v = -r) ∨
    (bytes ≠ [] ∧ bytes.headD 0 ≠ 45 ∧ parseIntLoop bytes 0 = some v) := by
  rcases bytes with _ | ⟨b, t⟩
  · refine Or.inl ⟨rfl, ?_⟩
    injection h with h
    exact h.symm
  · by_cases hb : b = 45
    · subst hb
      rcases t with _ | ⟨c, s⟩
      · have h' : (none : Option Int) = some v := h
        cases h'
      · have h' : (parseIntLoop (c :: s) 0).map (fun r => -r) = some v := h
        rcases hl : parseIntLoop (c :: s) 0 with _ | r
        · rw [hl] at h'; cases h'
        · rw [hl] at h'
          refine Or.inr (Or.inl ⟨r, c :: s, rfl, by simp, hl, ?_⟩)
          injection h' with h'
          exact h'.symm
    · have hbeq : (b == 45) = false := by simp [hb]
      unfold parseInt at h
      rw [if_neg (List.cons_ne_nil b t)] at h
      simp only [List.headD_cons, hbeq, Bool.false_eq_true, if_false, List.drop_zero,
        Nat.le_zero, List.length_eq_zero] at h
      rw [if_neg (List.cons_ne_nil b t)] at h
      rcases hl : parseIntLoop (b :: t) 0 with _ | r
      · rw [hl] at h; cases h
      · rw [hl] at h
        refine Or.inr (Or.inr ⟨List.cons_ne_nil b t, by simpa using hb, ?_⟩)
        exact h

/-- Every value `parse_int` accepts lies strictly above `i64::MIN` (the
magnitude is checked against `i64::MAX` before the sign is applied). -/
theorem parseInt_range {bytes : Bytes} {v : Int} (h : parseInt bytes = some v) :
    i64Min < v ∧ v ≤ i64Max := by
  rcases parseInt_cases h with ⟨_, hv⟩ | ⟨r, t, _, _, hl, hv⟩ | ⟨_, _, hl⟩
  · subst hv
    constructor
    · unfold i64Min; norm_num
    · unfold i64Max; norm_num
  · have hr := parseIntLoop_range t 0 r (by norm_num) (by unfold i64Max; norm_num) hl
    subst hv
    unfold i64Min i64Max at hr ⊢
    rw [pow63_eq] at hr ⊢
    omega
  · have hr := parseIntLoop_range bytes 0 v (by norm_num) (by unfold i64Max; norm_num) hl
    unfold i64Min i64Max at hr ⊢
    rw [pow63_eq] at hr ⊢
    omega

/-- On every record `parse_int` accepts, the radix sort's unchecked
`parse_integer_fast` computes the same value. -/
theorem parseInt_fast {bytes : Bytes} {v : Int} (h : parseInt bytes = some v) :
    parseIntegerFast bytes = v := by
  rcases parseInt_cases h with ⟨hE, hv⟩ | ⟨r, t, hb, hT, hl, hv⟩ | ⟨hE, hh, hl⟩
  · subst hE hv
    rfl
  · subst hb hv
    have hr := parseIntLoop_range t 0 r (by norm_num) (by unfold i64Max; norm_num) hl
    have hstep : parseIntegerFast (45 :: t) = wrap64 (-(parseFastLoop t 0)) := rfl
    rw [hstep, parseIntLoop_fast t 0 r hl]
    apply wrap64_eq_self
    · unfold i64Min
      unfold i64Max at hr
      rw [pow63_eq] at hr ⊢
      omega
    · unfold i64Max at hr ⊢
      rw [pow63_eq] at hr ⊢
      omega
  · rcases bytes with _ | ⟨b, t⟩
    · exact absurd rfl hE
    · have hb : ¬b = 45 := by simpa using hh
      have hall := parseIntLoop_all_digits (b :: t) 0 v hl
      have hd : isDigitB b = true := by
        rw [List.all_cons, Bool.and_eq_true] at hall
        exact hall.1
      have hdig : 48 ≤ b ∧ b ≤ 57 := by
        unfold isDigitB at hd
        simp at hd
        exact hd
      have hb45 : (b == 45) = false := by simp [hb]
      have hb43 : (b == 43) = false := by simp; omega
      unfold parseIntegerFast
      rw [if_neg (List.cons_ne_nil b t)]
      simp only [List.headD_cons, hb45, hb43, Bool.or_self, Bool.false_eq_true, if_false,
        List.drop_zero]
      exact parseIntLoop_fast (b :: t) 0 v hl

/-- Every record `parse_int` accepts passes the sampler's
`is_simple_integer` test. -/
theorem parseInt_isSimple {bytes : Bytes} (h : (parseInt bytes).isSome = true) :
    isSimpleInteger bytes = true := by
  rcases Option.isSome_iff_exists.mp h with ⟨v, hv⟩
  rcases parseInt_cases hv with ⟨hE, _⟩ | ⟨r, t, hb, hT, hl, _⟩ | ⟨hE, hh, hl⟩
  · subst hE; rfl
  · subst hb
    rcases t with _ | ⟨c, s⟩
    · exact absurd rfl hT
    · exact parseIntLoop_all_digits (c :: s) 0 r hl
  · rcases bytes with _ | ⟨b, t⟩
    · exact absurd rfl hE
    · have hb : ¬b = 45 := by simpa using hh
      have hall := parseIntLoop_all_digits (b :: t) 0 v hl
      have hd : isDigitB b = true := by
        rw [List.all_cons, Bool.and_eq_true] at hall
        exact hall.1
      have hdig : 48 ≤ b ∧ b ≤ 57 := by
        unfold isDigitB at hd
        simp at hd
        exact hd
      have hb45 : (b == 45) = false := by simp [hb]
      have hb43 : (b == 43) = false := by simp; omega
      simp only [isSimpleInteger]
      rw [hb45, hb43]
      simpa using hall

/-! ## Sortedness of the radix pipeline -/

/-- `toBits` is plain `toNat` on the non-negative half of the `i64` range. -/
theorem toBits_of_nonneg {v : Int} (h1 : 0 ≤ v) (h2 : v ≤ i64Max) : toBits v = v.toNat := by
  unfold toBits
  rw [Int.emod_eq_of_lt h1]
  unfold i64Max at h2
  rw [pow64_eq]
  rw [pow63_eq] at h2
  omega

/-- On the non-negative half of the `i64` range, `toBits` order is value
order. -/
theorem toBits_le_iff {a b : Int} (ha1 : 0 ≤ a) (ha2 : a ≤ i64Max)
    (hb1 : 0 ≤ b) (hb2 : b ≤ i64Max) : toBits a ≤ toBits b ↔ a ≤ b := by
  rw [toBits_of_nonneg ha1 ha2, toBits_of_nonneg hb1 hb2]
  omega

/-- The pass count computed by `radix_sort_positive_parallel` covers every
bit of every (non-negative, in-range) input value, so after the passes the
pair list is sorted by value. -/
theorem radixSortPositive_sorted (values : List (Int × Nat))
    (hv : ∀ p ∈ values, 0 ≤ p.1 ∧ p.1 ≤ i64Max) :
    List.Pairwise (fun p q : Int × Nat => p.1 ≤ q.1) (radixSortPositive values) := by
  unfold radixSortPositive
  set M := ((values.map Prod.fst).max?).getD 0 with hM
  set maxBits := if M = 0 then 1 else 64 - i64Clz M with hmb
  set passes := (maxBits + 7) / 8 with hpasses
  have hbound : ∀ p ∈ values, toBits p.1 < 2 ^ (passes * 8) := by
    intro p hp
    have hpv := hv p hp
    have hple : p.1 ≤ M := le_maxval values p hp
    by_cases hM0 : M = 0
    · have hz : p.1 = 0 := le_antisymm (hM0 ▸ hple) hpv.1
      rw [hz]
      have hzb : toBits 0 = 0 := by unfold toBits; norm_num
      rw [hzb]
      exact Nat.pos_pow_of_pos _ (by norm_num)
    · have hmax : (values.map Prod.fst).max? = some M := by
        rcases hopt : (values.map Prod.fst).max? with _ | m
        · rw [hM, hopt] at hM0
          exact absurd rfl hM0
        · rw [hM, hopt]
          rfl
      have hMmem : M ∈ values.map Prod.fst := List.max?_mem (fun a b => max_choice a b) hmax
      rcases List.mem_map.mp hMmem with ⟨q, hq, hqM⟩
      have hqv := hv q hq
      have hM1 : (0 : Int) ≤ M := hqM ▸ hqv.1
      have hM2 : M ≤ i64Max := hqM ▸ hqv.2
      have hMpos : (0 : Int) < M := lt_of_le_of_ne hM1 (Ne.symm hM0)
      have htb : toBits M = M.toNat := toBits_of_nonneg hM1 hM2
      have htbpos : toBits M ≠ 0 := by rw [htb]; omega
      have hlt63 : Nat.log2 (toBits M) < 63 := by
        rw [Nat.log2_lt htbpos, htb]
        have h63 : (2 : Nat) ^ 63 = 9223372036854775808 := by norm_num
        rw [h63]
        unfold i64Max at hM2
        rw [pow63_eq] at hM2
        omega
      have hclz : 64 - i64Clz M = Nat.log2 (toBits M) + 1 := by
        unfold i64Clz
        omega
      have hmbits : toBits M < 2 ^ maxBits := by
        rw [hmb, if_neg hM0, hclz]
        exact Nat.lt_log2_self
      have hpassbits : maxBits ≤ passes * 8 := by
        rw [hpasses]
        omega
      calc toBits p.1 ≤ toBits M := by
            rw [toBits_of_nonneg hpv.1 hpv.2, htb]
            omega
        _ < 2 ^ maxBits := hmbits
        _ ≤ 2 ^ (passes * 8) := Nat.pow_le_pow_right (by norm_num) hpassbits
  have hsorted := radixPasses_sorted passes values
  have hmem : ∀ p ∈ (List.range passes).foldl (fun acc pass => radixPass (pass * 8) acc) values,
      p ∈ values := fun p hp => (radixPasses_foldl_perm _ _).mem_iff.mp hp
  apply hsorted.imp_of_mem
  intro a b ha hb hle
  have ha' := hv a (hmem a ha)
  have hb' := hv b (hmem b hb)
  rw [Nat.mod_eq_of_lt (hbound a (hmem a ha)), Nat.mod_eq_of_lt (hbound b (hmem b hb))] at hle
  exact (toBits_le_iff ha'.1 ha'.2 hb'.1 hb'.2).mp hle

/-- Wrapping negation on a strictly negative, strictly-above-`i64Min` value
is plain negation. -/
theorem negWrap_of_neg {v : Int} (h1 : i64Min < v) (h2 : v < 0) : negWrap v = -v := by
  unfold negWrap
  apply wrap64_eq_self
  · unfold i64Min at h1 ⊢
    rw [pow63_eq] at h1 ⊢
    omega
  · unfold i64Min at h1
    unfold i64Max
    rw [pow63_eq] at h1 ⊢
    omega

/-- The signed partition of `parallel_radix_sort_pairs` produces a list
sorted by value, provided every value lies strictly above `i64::MIN` (the
wrapping negation of `i64::MIN` breaks the negative half otherwise). -/
theorem parallelRadixSortPairs_sorted (values : List (Int × Nat))
    (hv : ∀ p ∈ values, i64Min < p.1 ∧ p.1 ≤ i64Max) :
    List.Pairwise (fun p q : Int × Nat => p.1 ≤ q.1) (parallelRadixSortPairs values) := by
  unfold parallelRadixSortPairs
  rw [List.partition_eq_filter_filter]
  simp only []
  set f : Int × Nat → Bool := fun p => decide (p.1 < 0) with hf
  have hnegmem : ∀ p ∈ values.filter f, i64Min < p.1 ∧ p.1 < 0 := by
    intro p hp
    have h1 := hv p (List.mem_of_mem_filter hp)
    have h2 := (List.mem_filter.mp hp).2
    rw [hf] at h2
    simp at h2
    exact ⟨h1.1, h2⟩
  have hposmem : ∀ p ∈ values.filter (not ∘ f), 0 ≤ p.1 ∧ p.1 ≤ i64Max := by
    intro p hp
    have h1 := hv p (List.mem_of_mem_filter hp)
    have h2 := (List.mem_filter.mp hp).2
    rw [hf] at h2
    simp at h2
    exact ⟨h2, h1.2⟩
  have hposSorted : List.Pairwise (fun p q : Int × Nat => p.1 ≤ q.1)
      (if values.filter (not ∘ f) = [] then values.filter (not ∘ f)
       else radixSortPositive (values.filter (not ∘ f))) := by
    by_cases hE : values.filter (not ∘ f) = []
    · rw [if_pos hE, hE]
      exact List.Pairwise.nil
    · rw [if_neg hE]
      exact radixSortPositive_sorted _ hposmem
  have hposLB : ∀ q ∈ (if values.filter (not ∘ f) = [] then values.filter (not ∘ f)
       else radixSortPositive (values.filter (not ∘ f))), 0 ≤ q.1 := by
    intro q hq
    by_cases hE : values.filter (not ∘ f) = []
    · rw [if_pos hE, hE] at hq
      simp at hq
    · rw [if_neg hE] at hq
      exact (hposmem q ((radixSortPositive_perm _).mem_iff.mp hq)).1
  have hmappedmem : ∀ q ∈ (values.filter f).map (fun p => (negWrap p.1, p.2)),
      0 < q.1 ∧ q.1 ≤ i64Max := by
    intro q hq
    rcases List.mem_map.mp hq with ⟨p, hp, hpq⟩
    have hr := hnegmem p hp
    rw [← hpq]
    show 0 < negWrap p.1 ∧ negWrap p.1 ≤ i64Max
    rw [negWrap_of_neg hr.1 hr.2]
    have h1 := hr.1
    have h2 := hr.2
    unfold i64Min at h1
    unfold i64Max
    rw [pow63_eq] at h1 ⊢
    omega
  have hsortedMapped : List.Pairwise (fun p q : Int × Nat => p.1 ≤ q.1)
      (radixSortPositive ((values.filter f).map (fun p => (negWrap p.1, p.2)))) :=
    radixSortPositive_sorted _ (fun q hq => ⟨(hmappedmem q hq).1.le, (hmappedmem q hq).2⟩)
  have hrevmem : ∀ q ∈ (radixSortPositive ((values.filter f).map
      (fun p => (negWrap p.1, p.2)))).reverse, 0 < q.1 ∧ q.1 ≤ i64Max := by
    intro q hq
    rw [List.mem_reverse] at hq
    exact hmappedmem q ((radixSortPositive_perm _).mem_iff.mp hq)
  have hnegSorted : List.Pairwise (fun p q : Int × Nat => p.1 ≤ q.1)
      (((radixSortPositive ((values.filter f).map (fun p => (negWrap p.1, p.2)))).reverse).map
        (fun p => (negWrap p.1, p.2))) := by
    rw [List.pairwise_map, List.pairwise_reverse]
    apply hsortedMapped.imp_of_mem
    intro a b ha hb hle
    have ha' := hmappedmem a ((radixSortPositive_perm _).mem_iff.mp ha)
    have hb' := hmappedmem b ((radixSortPositive_perm _).mem_iff.mp hb)
    show negWrap b.1 ≤ negWrap a.1
    have hna : negWrap a.1 = -a.1 := by
      unfold negWrap
      apply wrap64_eq_self
      · have h2 := ha'.2
        unfold i64Min
        unfold i64Max at h2
        rw [pow63_eq] at h2 ⊢
        omega
      · have h1 := ha'.1
        unfold i64Max
        rw [pow63_eq]
        omega
    have hnb : negWrap b.1 = -b.1 := by
      unfold negWrap
      apply wrap64_eq_self
      · have h2 := hb'.2
        unfold i64Min
        unfold i64Max at h2
        rw [pow63_eq] at h2 ⊢
        omega
      · have h1 := hb'.1
        unfold i64Max
        rw [pow63_eq]
        omega
    rw [hna, hnb]
    omega
  have hnegUB : ∀ q ∈ (((radixSortPositive ((values.filter f).map
      (fun p => (negWrap p.1, p.2)))).reverse).map (fun p => (negWrap p.1, p.2))), q.1 ≤ 0 := by
    intro q hq
    rcases List.mem_map.mp hq with ⟨p, hp, hpq⟩
    have hp' := hrevmem p hp
    rw [← hpq]
    show negWrap p.1 ≤ 0
    have hnp : negWrap p.1 = -p.1 := by
      unfold negWrap
      apply wrap64_eq_self
      · have h2 := hp'.2
        unfold i64Min
        unfold i64Max at h2
        rw [pow63_eq] at h2 ⊢
        omega
      · have h1 := hp'.1
        unfold i64Max
        rw [pow63_eq]
        omega
    rw [hnp]
    omega
  rw [List.pairwise_append]
  refine ⟨?_, hposSorted, ?_⟩
  · by_cases hE : values.filter f = []
    · rw [if_pos hE, hE]
      exact List.Pairwise.nil
    · rw [if_neg hE]
      exact hnegSorted
  · intro a ha b hb
    have hb0 : 0 ≤ b.1 := hposLB b hb
    by_cases hE : values.filter f = []
    · rw [if_pos hE, hE] at ha
      simp at ha
    · rw [if_neg hE] at ha
      exact le_trans (hnegUB a ha) hb0

/-- A record not ending in a carriage return survives the external-sort
chunk reader byte-exactly (its raw line is the record plus the trailing
newline `read_line` keeps). -/
theorem readChunkProcessLine_no_cr (rec : Bytes) (h : rec.getLast? ≠ some 13) :
    readChunkProcessLine (rec ++ [10]) = rec := by
  unfold readChunkProcessLine
  rw [List.getLast?_concat, if_pos rfl, List.dropLast_concat, if_neg h]

/-! ## Check-mode lemmas -/

theorem checkSortedGo_spec (cmp : Bytes → Bytes → Ordering) :
    ∀ (i : Nat) (lines : List Bytes) (n : Nat),
      i + 1 < lines.length →
      (∀ j, j < i → cmp (lines.getD j []) (lines.getD (j + 1) []) ≠ .gt) →
      cmp (lines.getD i []) (lines.getD (i + 1) []) = .gt →
      checkSortedGo cmp lines n = some (n + i + 1) := by
  intro i
  induction i with
  | zero =>
    intro lines n hlen _ hviol
    match lines, hlen with
    | a :: b :: t, _ =>
      simp only [List.getD_cons_zero, List.getD_cons_succ] at hviol
      simp [checkSortedGo, hviol]
  | succ i ih =>
    intro lines n hlen hpre hviol
    match lines, hlen with
    | a :: b :: t, hlen =>
      have h0 : cmp a b ≠ .gt := by
        have := hpre 0 (Nat.succ_pos i)
        simpa using this
      have hrec : checkSortedGo cmp (b :: t) (n + 1) = some (n + 1 + i + 1) := by
        apply ih (b :: t) (n + 1)
        · have : i + 1 + 1 < (b :: t).length + 1 := by simpa using hlen
          omega
        · intro j hj
          have := hpre (j + 1) (by omega)
          simpa using this
        · simpa using hviol
      simp only [checkSortedGo, if_neg h0]
      rw [hrec]
      congr 1
      omega

/-! ## Input of the C4 counterexample scenario -/

/-- A 150-record input for the stable dispatcher scenario: records are the
single bytes `0, 1, …, 120, 120, 121, …, 148` (strictly ascending except for
the duplicated byte `120` at input positions 120 and 121), each carrying its
original index.  The pattern sampler sees the first 100 records (step 1),
all strictly ascending, and classifies the data `MostlySorted`. -/
def c4Input : List SLine :=
  (List.range 150).map (fun i => ⟨[if i ≤ 120 then i else i - 1], i⟩)

/-! ## Claim theorems -/

/-- C1: the claim states that merged output is non-decreasing under the
configured comparator because the k-way mergers order their min-heap by that
comparator.  Neither merger does.  `CoreSort::merge_readers` orders its heap
by raw ascending line bytes only (`MergeItem::cmp`, src/core_sort.rs lines
672-682, ignores mode, keys and reverse), so under the integer comparator
merging the sorted runs `["9"]` and `["10"]` emits `"10"` before `"9"`, an
adjacent pair with `compare_numeric("10", "9") = Greater`.
`ExternalSort::merge_sorted_chunks` is worse: its `MergeItem::cmp`
(src/external_sort.rs lines 433-438) is the REVERSED lexicographic
comparison inside a `BinaryHeap<Reverse<_>>` — the two reversals cancel, so
each pop takes the lexicographically GREATEST front line and merging the
sorted runs `["1"]` and `["2"]` emits `"2"` before `"1"`, an adjacent pair
Greater under both the integer comparator and the default byte
comparator (and the `_numeric` parameter is unused). -/
theorem c1_merge_heap_ignores_comparator :
    mergeSortedChunks [[[49]], [[50]]] false = [[50], [49]] ∧
    compareNumeric [50] [49] = .gt ∧
    compareWithKeysDefault [50] [49] = .gt ∧
    mergeReaders [[[57]], [[49, 48]]] = [[49, 48], [57]] ∧
    compareNumeric [49, 48] [57] = .gt := by decide

/-- C3: the claim states that with `unique` set every merge path skips a
record equal to the last emitted one.  `CoreSort::merge_readers`
(src/core_sort.rs lines 643-747), the merge used for multi-file sorts, has
no unique handling at all — the `unique` flag is not even an input to the
loop — so merging the two sorted single-record files `["a"]` and `["a"]`
under `-u` emits `"a"` twice, an adjacent pair comparing `Equal` (the bytes
are identical, hence equal under every configured comparator). -/
theorem c3_merge_readers_never_dedups :
    mergeReaders [[[97]], [[97]]] = [[97], [97]] ∧ bytesCmp [97] [97] = .eq := by decide

/-- C7: the claim states that in zero-terminated mode the scanner splits
records on NUL and the writer emits NUL terminators.  `parse_lines`
(src/zero_copy.rs lines 314-333) splits on `b'\n'` only and takes no
zero-terminated flag, so the `-z` input `"a\0b\0"` yields the single record
`[97, 0, 98, 0]` with the NUL bytes kept inside; and
`CoreSort::write_output_direct` (src/core_sort.rs lines 1285-1301)
unconditionally appends `b'\n'`. -/
theorem c7_zero_terminated_ignored :
    parseLines [97, 0, 98, 0] = [[97, 0, 98, 0]] ∧
    writeOutputDirect [[97, 0, 98, 0]] = [97, 0, 98, 0, 10] := by decide

/-- C9: the claim states that the integer pipeline never panics and
surfaces errors as structured values even when records beyond the sampled
first 100 are not integers.  `are_all_simple_integers` accepts a list whose
101st record is `"12.5"` because only the first 100 records are sampled,
after which `parse_integer_fast` runs on `"12.5"`: under debug assertions
the `u8` subtraction `b'.' - b'0'` overflows and panics (the checked
embedding returns `none`), and in release builds the arithmetic wraps and
silently produces the garbage key 3745 instead of any structured error. -/
theorem c9_radix_parse_overflows_on_unsampled :
    areAllSimpleIntegers (List.replicate 100 [49] ++ [[49, 50, 46, 53]]) = true ∧
    parseIntegerFastChecked [49, 50, 46, 53] = none ∧
    parseIntegerFast [49, 50, 46, 53] = 3745 := by decide

/-- C10: the fast integer parse maps the empty record to `Some(0)`
(src/zero_copy.rs line 52), so in integer mode an empty record compares
`Equal` to the record `"0"`, and sorts above the numeric record `"-5"`
rather than below all numeric values. -/
theorem c10_empty_record_parses_as_zero :
    parseInt [] = some 0 ∧ compareNumeric [] [48] = .eq ∧
    compareNumeric [] [45, 53] = .gt := by decide

/-- C2 counterexample: byte fidelity fails through the external-sort path.
The chunk reader of `ExternalSort::read_chunk_lines` (src/external_sort.rs
lines 173-179) maps the raw line `"a\r\n"` to the stored record `"a"`,
whereas the record model (`parse_lines`, terminator excluded) makes the
record of that input `"a\r"`: the trailing carriage-return byte is
dropped, so the output record's bytes differ from the input record's. -/
theorem c2_counterexample :
    readChunkProcessLine [97, 13, 10] = [97] ∧
    parseLines [97, 13, 10] = [[97, 13]] ∧ ([97] : Bytes) ≠ [97, 13] := by decide

/-- C2 amended: without `unique`, the in-memory pipeline produces a
permutation of the input records with bytes preserved exactly — writing the
scanned records back reproduces the input byte stream (adding the final
terminator exactly when missing), and each sorting stage (insertion sort,
the radix pipeline — even on garbage records — and the comparison sorts)
permutes its input.  Through the external-sort path, however, byte fidelity
holds only for records that do not end in a carriage return: the chunk
reader strips a `'\r'` preceding the record terminator. -/
theorem c2_amended_permutation_and_fidelity :
    (∀ data : Bytes, writeOutputDirect (parseLines data) =
        if data = [] then [] else if endsWithNl data then data else data ++ [10]) ∧
    (∀ (mp : SLine → SLine → Bool) (l : List SLine), (insertionSortBy mp l).Perm l) ∧
    (∀ lines : List Bytes, (parallelRadixSortIntegers lines).Perm lines) ∧
    (∀ lines : List Bytes, (comparisonSortNumeric lines).Perm lines) ∧
    (∀ lines : List SLine, (comparisonSortStable lines).Perm lines) ∧
    (∀ rec : Bytes, rec.getLast? ≠ some 13 → readChunkProcessLine (rec ++ [10]) = rec) :=
  ⟨writeOutputDirect_parseLines,
   fun mp l => insertionSortBy_perm mp l,
   parallelRadixSortIntegers_perm,
   fun lines => List.mergeSort_perm lines _,
   fun lines => List.mergeSort_perm lines _,
   readChunkProcessLine_no_cr⟩

/-- Witness for the C2 amended theorem: the chunk-reader fidelity component
applied at the record `"a"`, whose last byte is not a carriage return. -/
theorem c2_amended_witness : readChunkProcessLine ([97] ++ [10]) = [97] :=
  c2_amended_permutation_and_fidelity.2.2.2.2.2 [97] (by decide)

set_option maxRecDepth 100000 in
/-- C4: the claim states that with `stable` set, comparator-equal records
keep their input order for every algorithm the dispatcher may choose.  In
the `MostlySorted` branch of `sort_lines_with_cache` (src/core_sort.rs lines
805-814) the dispatcher insertion-sorts and then reverses the whole array
when `reverse` is set, regardless of `stable`: on `c4Input` (already sorted,
with the equal records at input positions 120 and 121) the output is the
exact reversal of the input, so the two records with identical bytes appear
with original index 121 before 120 — input order inverted.  The statement
quantifies over the three-way-quicksort parameter `tw` because the
`ManyDuplicates` branch is not reached at this input. -/
theorem c4_stable_reverse_breaks_stability :
    (∀ tw : List SLine → List SLine,
      sortLinesWithCache tw true true false c4Input = c4Input.reverse) ∧
    (c4Input.getD 120 default).line = (c4Input.getD 121 default).line ∧
    (c4Input.getD 120 default).idx = 120 ∧
    (c4Input.getD 121 default).idx = 121 ∧
    (c4Input.reverse.getD 28 default).idx = 121 ∧
    (c4Input.reverse.getD 29 default).idx = 120 := by
  refine ⟨fun tw => ?_, by decide, by decide, by decide, by decide, by decide⟩
  rfl

/-- C6 counterexample: `compare_numeric` is not transitive, hence not a
total order.  With `a = "0"`, `b = "-0"`, `c = "-abc"`: the fast path gives
`compare(a, b) = Equal`, the string path gives `compare(b, c) = Equal`
(both negative with empty digit runs), yet `compare(a, c) = Greater`
(sign comparison).  The final conjunct also refutes the parenthetical that
non-numeric content is less than any numeric value: `"abc"` compares
`Greater` than the numeric record `"-5"`. -/
theorem c6_counterexample :
    compareNumeric [48] [45, 48] = .eq ∧
    compareNumeric [45, 48] [45, 97, 98, 99] = .eq ∧
    compareNumeric [48] [45, 97, 98, 99] = .gt ∧
    compareNumeric [97, 98, 99] [45, 53] = .gt := by decide

/-- C6 amended: `compare_numeric` satisfies `compare(a,b) = -compare(b,a)`
but is not transitive (see the counterexample); the general-floating
comparator `compare_general_numeric` is antisymmetric and transitive — a
total order — for every parse function into a linearly ordered value space
(modelling `f64` under `total_cmp`) and every NaN predicate, with NaNs
sorting above all non-NaN values and ties falling back to the lexicographic
byte comparison. -/
theorem c6_amended_comparator_laws :
    (∀ a b : Bytes, compareNumeric a b = (compareNumeric b a).swap) ∧
    (∀ (V : Type) (_ : LinearOrder V) (parse : Bytes → V) (isNan : V → Bool),
      (∀ a b : Bytes, compareGeneralNumericWith parse isNan a b =
          (compareGeneralNumericWith parse isNan b a).swap) ∧
      (∀ a b c : Bytes, compareGeneralNumericWith parse isNan a b ≠ .gt →
          compareGeneralNumericWith parse isNan b c ≠ .gt →
          compareGeneralNumericWith parse isNan a c ≠ .gt)) :=
  ⟨compareNumeric_swap, fun _ _ parse isNan =>
    ⟨compareGeneralNumericWith_swap parse isNan,
     fun a b c => compareGeneralNumericWith_le_trans parse isNan a b c⟩⟩

/-- Witness for the C6 amended theorem at a concrete instance: the
transitivity component applied with the constant parse function into `Int`
at the records `"a"`, `"b"`, `"c"`. -/
theorem c6_amended_witness :
    compareGeneralNumericWith (fun _ => (0 : Int)) (fun _ => false) [97] [99] ≠ .gt :=
  (c6_amended_comparator_laws.2 Int inferInstance (fun _ => (0 : Int)) (fun _ => false)).2
    [97] [98] [99] (by decide) (by decide)

/-- C8: in check mode, when the first adjacent pair violating
`compare(prev, cur) != Greater` puts the violating record at 1-based line
number `i + 2` (records `0..i` pairwise in order, records `i` and `i + 1`
out of order), the engine reports the diagnostic
`sort: <source>:<line>: disorder` with that line number and exits with
code 1 (`check_file_sorted_with_line` returns `Err(i + 2)` and the caller
prints and calls `exit(1)`; `check_stdin_sorted` performs the same scan). -/
theorem c8_check_reports_first_disorder (cmp : Bytes → Bytes → Ordering)
    (src : String) (lines : List Bytes) (i : Nat)
    (hlen : i + 1 < lines.length)
    (hpre : ∀ j, j < i → cmp (lines.getD j []) (lines.getD (j + 1) []) ≠ .gt)
    (hviol : cmp (lines.getD i []) (lines.getD (i + 1) []) = .gt) :
    checkReport src cmp lines = (some (checkDiagnostic src (i + 2)), 1) := by
  unfold checkReport checkFileSortedWithLine
  rw [checkSortedGo_spec cmp i lines 1 hlen hpre hviol]
  have h : 1 + i + 1 = i + 2 := by omega
  rw [h]

/-- Witness for C8 at the concrete scenario of the claim: the stdin input
`"1\n3\n2\n"` under the default (lexicographic) comparator produces the
diagnostic `sort: -:3: disorder` and exit code 1 — the first violation is at
`i = 1`, i.e. 1-based line 3. -/
theorem c8_check_witness :
    checkReport "-" bytesCmp (parseLines [49, 10, 51, 10, 50, 10]) =
      (some "sort: -:3: disorder", 1) := by
  have h := c8_check_reports_first_disorder bytesCmp "-"
    (parseLines [49, 10, 51, 10, 50, 10]) 1 (by decide)
    (fun j hj => by
      have hj0 : j = 0 := Nat.lt_one_iff.mp hj
      subst hj0
      decide)
    (by decide)
  rw [h]
  decide


/-! ## Claim C5: radix sort vs compare_numeric -/

theorem getD_replicate {a d : α} : ∀ (n i : Nat), i < n → (List.replicate n a).getD i d = a := by
  intro n
  induction n with
  | zero => intro i h; exact absurd h (Nat.not_lt_zero i)
  | succ m ih =>
    intro i h
    rw [List.replicate_succ]
    cases i with
    | zero => rfl
    | succ j =>
      rw [List.getD_cons_succ]
      exact ih j (by omega)

theorem getD_mem_of_lt {l : List α} {i : Nat} (d : α) (h : i < l.length) : l.getD i d ∈ l := by
  induction l generalizing i with
  | nil => simp at h
  | cons x t ih =>
    cases i with
    | zero => exact List.mem_cons_self x t
    | succ j =>
      rw [List.getD_cons_succ]
      exact List.mem_cons_of_mem _ (ih (by simpa using h))

theorem intCmp_ne_gt {x y : Int} (h : x ≤ y) : intCmp x y ≠ .gt := by
  unfold intCmp
  rcases lt_trichotomy x y with hlt | heq | hgt
  · rw [if_pos hlt]
    decide
  · rw [if_neg (by omega), if_pos heq]
    decide
  · exact absurd hgt (not_lt.mpr h)

/-- The record `"-9223372036854775808"` (the decimal spelling of
`i64::MIN`). -/
def c5RecMIN : Bytes :=
  [45, 57, 50, 50, 51, 51, 55, 50, 48, 51, 54, 56, 53, 52, 55, 55, 53, 56, 48, 56]

/-- 10 001 records: `i64::MIN`, then `"-1"`, then 9 999 copies of `"1"`. -/
def c5Input : List Bytes := c5RecMIN :: [45, 49] :: List.replicate 9999 [49]

/-- Value of an all-digit byte string read in base 10. -/
def decDigitsVal (digits : Bytes) : Nat :=
  digits.foldl (fun acc b => acc * 10 + (b - 48)) 0

/-- Modelled from the claim's precondition: the record is an
optionally-signed decimal integer whose value is representable in a 64-bit
signed integer (magnitude at most `2^63` when negative, at most `2^63 - 1`
otherwise). -/
def isSignedDecimalI64 (rec : Bytes) : Bool :=
  let s := parseSignSplit rec
  !s.2.isEmpty && s.2.all isDigitB &&
    (if s.1 then decide (decDigitsVal s.2 ≤ 2 ^ 63)
     else decide (decDigitsVal s.2 ≤ 2 ^ 63 - 1))

theorem c5Input_mem : ∀ x ∈ c5Input, x = c5RecMIN ∨ x = [45, 49] ∨ x = [49] := by
  intro x hx
  unfold c5Input at hx
  rcases List.mem_cons.mp hx with h | hx2
  · exact Or.inl h
  rcases List.mem_cons.mp hx2 with h | hx3
  · exact Or.inr (Or.inl h)
  · exact Or.inr (Or.inr (List.eq_of_mem_replicate hx3))

theorem c5Input_length : c5Input.length = 10001 := by
  unfold c5Input
  rw [List.length_cons, List.length_cons, List.length_replicate]

set_option maxRecDepth 8000 in
theorem c5_pairs_eq : linesToPairs c5Input =
    (i64Min, 0) :: (-1, 1) :: (List.range 9999).map (fun i => ((1 : Int), i + 2)) := by
  unfold linesToPairs
  rw [c5Input_length]
  rw [show (10001 : Nat) = 2 + 9999 from rfl]
  rw [List.range_add, List.map_append, List.map_map]
  have h1 : (List.range 2).map (fun i => (parseIntegerFast (c5Input.getD i []), i)) =
      [(i64Min, 0), (-1, 1)] := by decide
  have h2 : (List.range 9999).map
        ((fun i => (parseIntegerFast (c5Input.getD i []), i)) ∘ fun x => 2 + x) =
      (List.range 9999).map (fun i => ((1 : Int), i + 2)) := by
    apply List.map_congr_left
    intro i hi
    have hi' : i < 9999 := List.mem_range.mp hi
    show (parseIntegerFast (c5Input.getD (2 + i) []), 2 + i) = ((1 : Int), i + 2)
    have hgd : c5Input.getD (2 + i) [] = [49] := by
      unfold c5Input
      rw [show 2 + i = i + 2 from by omega]
      rw [List.getD_cons_succ, List.getD_cons_succ]
      exact getD_replicate 9999 i hi'
    rw [hgd]
    have hpf : parseIntegerFast [49] = 1 := by decide
    rw [hpf, Nat.add_comm]
  rw [h1, h2]
  rfl

theorem parallelRadixSortPairs_eq_of_parts (l negs poss : List (Int × Nat))
    (hpart : l.partition (fun p => p.1 < 0) = (negs, poss))
    (hn : negs ≠ []) (hp : poss ≠ []) :
    parallelRadixSortPairs l =
      ((radixSortPositive (negs.map (fun p => (negWrap p.1, p.2)))).reverse).map
        (fun p => (negWrap p.1, p.2)) ++ radixSortPositive poss := by
  unfold parallelRadixSortPairs
  rw [hpart]
  simp only []
  rw [if_neg hn, if_neg hp]

set_option maxRecDepth 8000 in
theorem c5_sorted_pairs_eq :
    parallelRadixSortPairs (linesToPairs c5Input) =
      [((-1 : Int), (1 : Nat)), (i64Min, 0)] ++
        radixSortPositive ((List.range 9999).map (fun i => ((1 : Int), i + 2))) := by
  rw [c5_pairs_eq]
  have htmem : ∀ q ∈ (List.range 9999).map (fun i => ((1 : Int), i + 2)), q.1 = 1 := by
    intro q hq
    rcases List.mem_map.mp hq with ⟨i, _, hiq⟩
    rw [← hiq]
  have htne : (List.range 9999).map (fun i => ((1 : Int), i + 2)) ≠ [] := by
    intro hc
    have hlz : ((List.range 9999).map (fun i => ((1 : Int), i + 2))).length = 0 := by
      rw [hc]
      rfl
    rw [List.length_map, List.length_range] at hlz
    exact absurd hlz (by norm_num)
  have hfneg : ((i64Min, (0 : Nat)) :: ((-1 : Int), (1 : Nat)) ::
      (List.range 9999).map (fun i => ((1 : Int), i + 2))).filter (fun p => decide (p.1 < 0)) =
      [(i64Min, 0), (-1, 1)] := by
    rw [List.filter_cons_of_pos (by decide), List.filter_cons_of_pos (by decide)]
    rw [List.filter_eq_nil_iff.mpr]
    intro q hq
    simp [htmem q hq]
  have hfpos : ((i64Min, (0 : Nat)) :: ((-1 : Int), (1 : Nat)) ::
      (List.range 9999).map (fun i => ((1 : Int), i + 2))).filter
        (not ∘ fun p => decide (p.1 < 0)) =
      (List.range 9999).map (fun i => ((1 : Int), i + 2)) := by
    rw [List.filter_cons_of_neg (by decide), List.filter_cons_of_neg (by decide)]
    apply List.filter_eq_self.mpr
    intro q hq
    simp [htmem q hq]
  have hpart : ((i64Min, (0 : Nat)) :: ((-1 : Int), (1 : Nat)) ::
      (List.range 9999).map (fun i => ((1 : Int), i + 2))).partition (fun p => p.1 < 0) =
      ([(i64Min, 0), (-1, 1)], (List.range 9999).map (fun i => ((1 : Int), i + 2))) := by
    rw [List.partition_eq_filter_filter, hfneg, hfpos]
  rw [parallelRadixSortPairs_eq_of_parts _ _ _ hpart (by decide) htne]
  have hclz : i64Clz 1 = 63 := by
    unfold i64Clz
    have hl : Nat.log2 (toBits 1) = 0 := by
      rw [show toBits 1 = 1 from by decide]
      unfold Nat.log2
      norm_num
    rw [hl]
  have hrsp : radixSortPositive [((i64Min : Int), (0 : Nat)), (1, 1)] =
      radixPass 0 [((i64Min : Int), (0 : Nat)), (1, 1)] := by
    unfold radixSortPositive
    simp only []
    rw [show (([((i64Min : Int), (0 : Nat)), (1, 1)].map Prod.fst).max?).getD 0 = 1 from
      by decide]
    rw [if_neg (by norm_num), hclz]
    norm_num
    rfl
  have hnegs : ((radixSortPositive ([((i64Min : Int), (0 : Nat)), (-1, 1)].map
      (fun p => (negWrap p.1, p.2)))).reverse).map (fun p => (negWrap p.1, p.2)) =
      [(-1, 1), (i64Min, 0)] := by
    rw [show [((i64Min : Int), (0 : Nat)), (-1, 1)].map (fun p => (negWrap p.1, p.2)) =
        [((i64Min : Int), (0 : Nat)), (1, 1)] from by decide]
    rw [hrsp]
    decide
  rw [hnegs]

set_option maxRecDepth 8000 in
theorem c5_take2 : (sortNumericLines true c5Input).take 2 = [[45, 49], c5RecMIN] := by
  have hall : areAllSimpleIntegers c5Input = true := by
    unfold areAllSimpleIntegers
    apply List.all_eq_true.mpr
    intro x hx
    rcases c5Input_mem x (List.take_subset _ _ hx) with h | h | h <;> rw [h] <;> decide
  have hdisp : sortNumericLines true c5Input = parallelRadixSortIntegers c5Input := by
    unfold sortNumericLines
    rw [if_neg (by rw [c5Input_length]; norm_num), if_pos hall,
      if_pos ⟨rfl, by rw [c5Input_length]; norm_num⟩]
  rw [hdisp]
  unfold parallelRadixSortIntegers reconstructLines
  rw [c5_sorted_pairs_eq, List.map_append, List.take_append_of_le_length (by decide)]
  decide
set_option maxRecDepth 8000 in
/-- C5 counterexample: a slice of 10 001 records that are all optionally-signed
decimal integers representable in `i64` — `"-9223372036854775808"` (`i64::MIN`),
`"-1"`, and 9 999 copies of `"1"` — on which the integer-mode radix path
(`sort_numeric_lines` with the parallel flag, n ≥ 1000) emits `"-1"` before
`i64::MIN`, although `compare_numeric "-1" "-9223372036854775808" = Greater`:
the signed partition wrap-negates `i64::MIN` to itself, so the "negatives by
absolute value, reversed" step misplaces it.  The radix ordering therefore
differs from every ordering sorted by `compare_numeric`. -/
theorem c5_radix_misorders_i64_min :
    (∀ rec ∈ c5Input, isSignedDecimalI64 rec = true) ∧
    c5Input.length = 10001 ∧
    (sortNumericLines true c5Input).take 2 = [[45, 49], c5RecMIN] ∧
    compareNumeric [45, 49] c5RecMIN = .gt := by
  refine ⟨?_, c5Input_length, c5_take2, by decide⟩
  intro rec hrec
  rcases c5Input_mem rec hrec with h | h | h <;> rw [h] <;> decide

/-- C5 amended: for every slice of records accepted by `Line::parse_int`
(empty, or an optionally `'-'`-signed digit string whose checked value fits
`i64` — which excludes `i64::MIN` itself and `'+'`-signed spellings), the
radix sort used in integer mode produces a permutation of the slice that is
non-decreasing under `compare_numeric`, and for n ≥ 1000 the dispatcher
resolves to exactly these radix routines (parallel above 10 000 records,
sequential otherwise). -/
theorem c5_amended_radix_correct (lines : List Bytes)
    (hv : ∀ rec ∈ lines, (parseInt rec).isSome = true) :
    (parallelRadixSortIntegers lines).Perm lines ∧
    List.Pairwise (fun a b => compareNumeric a b ≠ .gt) (parallelRadixSortIntegers lines) ∧
    (1000 ≤ lines.length →
      sortNumericLines true lines =
        if 10000 < lines.length then parallelRadixSortIntegers lines
        else sequentialRadixSortIntegers lines) := by
  have hvals : ∀ p ∈ linesToPairs lines, i64Min < p.1 ∧ p.1 ≤ i64Max := by
    intro p hp
    unfold linesToPairs at hp
    rcases List.mem_map.mp hp with ⟨i, hi, hip⟩
    rcases Option.isSome_iff_exists.mp
      (hv _ (getD_mem_of_lt [] (List.mem_range.mp hi))) with ⟨v, hpv⟩
    rw [← hip]
    constructor
    · show i64Min < parseIntegerFast (lines.getD i [])
      rw [parseInt_fast hpv]
      exact (parseInt_range hpv).1
    · show parseIntegerFast (lines.getD i []) ≤ i64Max
      rw [parseInt_fast hpv]
      exact (parseInt_range hpv).2
  refine ⟨parallelRadixSortIntegers_perm lines, ?_, ?_⟩
  · unfold parallelRadixSortIntegers reconstructLines
    rw [List.pairwise_map]
    apply (parallelRadixSortPairs_sorted (linesToPairs lines) hvals).imp_of_mem
    intro p q hpmem hqmem hle
    have hperm := parallelRadixSortPairs_perm (linesToPairs lines)
      (fun r hr => ⟨(hvals r hr).1.le, (hvals r hr).2⟩)
    have hp' : p ∈ linesToPairs lines := hperm.mem_iff.mp hpmem
    have hq' : q ∈ linesToPairs lines := hperm.mem_iff.mp hqmem
    unfold linesToPairs at hp' hq'
    rcases List.mem_map.mp hp' with ⟨i, hi, hip⟩
    rcases List.mem_map.mp hq' with ⟨j, hj, hjq⟩
    rcases Option.isSome_iff_exists.mp
      (hv _ (getD_mem_of_lt [] (List.mem_range.mp hi))) with ⟨x, hx⟩
    rcases Option.isSome_iff_exists.mp
      (hv _ (getD_mem_of_lt [] (List.mem_range.mp hj))) with ⟨y, hy⟩
    have hip1 : p.1 = parseIntegerFast (lines.getD i []) := by rw [← hip]
    have hip2 : p.2 = i := by rw [← hip]
    have hjq1 : q.1 = parseIntegerFast (lines.getD j []) := by rw [← hjq]
    have hjq2 : q.2 = j := by rw [← hjq]
    rw [hip1, hjq1, parseInt_fast hx, parseInt_fast hy] at hle
    rw [hip2, hjq2]
    unfold compareNumeric
    rw [hx, hy]
    exact intCmp_ne_gt hle
  · intro hlen
    have hall : areAllSimpleIntegers lines = true := by
      unfold areAllSimpleIntegers
      apply List.all_eq_true.mpr
      intro x hx
      exact parseInt_isSimple (hv x (List.take_subset _ _ hx))
    unfold sortNumericLines
    rw [if_neg (by omega), if_pos hall]
    by_cases hbig : 10000 < lines.length
    · rw [if_pos ⟨rfl, hbig⟩, if_pos hbig]
    · rw [if_neg (fun hc => hbig hc.2), if_neg hbig]

/-- Witness for C5: the amended theorem applied to the concrete two-record
slice `["1", "0"]`, whose records `parse_int` accepts. -/
theorem c5_amended_witness :
    (∀ rec ∈ ([[49], [48]] : List Bytes), (parseInt rec).isSome = true) ∧
    ((parallelRadixSortIntegers [[49], [48]]).Perm [[49], [48]] ∧
      List.Pairwise (fun a b => compareNumeric a b ≠ .gt)
        (parallelRadixSortIntegers [[49], [48]]) ∧
      (1000 ≤ ([[49], [48]] : List Bytes).length →
        sortNumericLines true [[49], [48]] =
          if 10000 < ([[49], [48]] : List Bytes).length then
            parallelRadixSortIntegers [[49], [48]]
          else sequentialRadixSortIntegers [[49], [48]])) :=
  ⟨by decide, c5_amended_radix_correct [[49], [48]] (by decide)⟩

end RustSort
